import Mathlib

/-!
Verification of the aitherhub core pipeline: a shallow embedding of the
range merger / slot scorer (`worker/batch/csv_slot_filter.py`), the product
exposure segmenter and multi-modal fusion
(`worker/batch/product_detection_pipeline.py`), the incremental clustering
engine (`worker/batch/grouping_pipeline.py`) and the concurrent job
scheduler (`worker/controller/simple_worker.py`), together with theorems
settling the specification's claims about them.

Python floats are modelled as exact rationals (ℚ); the clustering engine's
vector arithmetic (which needs a square root for the L2 norm) is modelled
over ℝ.  Python strings are modelled as Lean `String`s, and the string
operations the code uses (`lower`, `in` (substring), `split`, `strip`) are
implemented below over the character list so that they evaluate by kernel
reduction.  Python dicts whose keys matter only through lookup are
association lists with first-match lookup; a dict's insertion order is the
list order.
-/

set_option allowUnsafeReducibility true
-- Batteries marks the ℚ field operations `@[irreducible]`, which blocks
-- kernel evaluation of concrete rational arithmetic (`decide`).  Restoring
-- the default reducibility changes no definition and no axiom; it only
-- lets closed goals about concrete rationals be evaluated.
attribute [semireducible] Rat.add Rat.mul Rat.inv Rat.sub Rat.neg Rat.div

/-! ## String helpers (Python semantics, kernel-evaluable) -/

/-- Python `str.lower()` (character-wise; only ASCII letters are affected,
by both Python and `Char.toLower`, on the strings this code base handles). -/
def strLower (s : String) : String := ⟨s.data.map Char.toLower⟩

/-- Whether `pat` occurs at the head of the second list. -/
def listStartsWith [DecidableEq α] : List α → List α → Bool
  | [], _ => true
  | _ :: _, [] => false
  | p :: ps, x :: xs => p = x && listStartsWith ps xs

/-- Whether `pat` occurs as a contiguous sublist of `l` (Python `pat in s`
for strings; the empty pattern matches everywhere, as in Python). -/
def listContainsSub [DecidableEq α] (l pat : List α) : Bool :=
  match l with
  | [] => listStartsWith pat []
  | _ :: xs => listStartsWith pat l || listContainsSub xs pat

/-- Python substring test `pat in s`. -/
def strContainsSub (s pat : String) : Bool := listContainsSub s.data pat.data

/-- Split a character list at the characters satisfying `p`; adjacent
delimiters yield empty pieces, which the callers below discard (Python
`re.split` with a `+`-quantified class yields no interior empty pieces, but
the two agree after the callers' length filter). -/
def splitCharsOn (p : Char → Bool) : List Char → List String
  | [] => [""]
  | c :: cs =>
    let r := splitCharsOn p cs
    if p c then "" :: r
    else match r with
      | [] => [⟨[c]⟩]
      | s :: ss => (⟨c :: s.data⟩ : String) :: ss

/-- Python `str.strip()`. -/
def strStrip (s : String) : String :=
  ⟨((s.data.dropWhile Char.isWhitespace).reverse.dropWhile Char.isWhitespace).reverse⟩

/-! ## Stable sorting

Python's `sorted(key=...)` / `list.sort(key=...)` is the (unique) stable
sort by the key; Mathlib's `List.insertionSort` with the relation
`key a ≤ key b` is that same stable sort, and comes with the lemmas we
need. -/

/-- The sort relation used by `sorted(l, key=...)`: compare projections. -/
abbrev keyLE {α β : Type} [LE β] (key : α → β) (a b : α) : Prop := key a ≤ key b

instance {α β : Type} [LinearOrder β] (key : α → β) : DecidableRel (keyLE key) :=
  fun a b => inferInstanceAs (Decidable (key a ≤ key b))

instance {α β : Type} [LinearOrder β] (key : α → β) : IsTotal α (keyLE key) :=
  ⟨fun a b => le_total (key a) (key b)⟩

instance {α β : Type} [LinearOrder β] (key : α → β) : IsTrans α (keyLE key) :=
  ⟨fun _ _ _ hab hbc => le_trans hab hbc⟩

/-- `sorted(l, key=key)`. -/
def pySorted {α β : Type} [LinearOrder β] (key : α → β) (l : List α) : List α :=
  l.insertionSort (keyLE key)

/-- Python `int(x)` on a float: truncation toward zero. -/
def pyInt (q : ℚ) : ℤ := if 0 ≤ q then ⌊q⌋ else -⌊-q⌋

/-- Python `round(x, 2)` (round-half-to-even, "banker's rounding") on the
exact rational value.  (CPython rounds the binary double; on the values
arising here the two agree, and none of the claims depends on binary
representation effects.) -/
def roundHalfEven (x : ℚ) : ℤ :=
  if x - ⌊x⌋ < 1/2 then ⌊x⌋
  else if (1:ℚ)/2 < x - ⌊x⌋ then ⌊x⌋ + 1
  else if Even ⌊x⌋ then ⌊x⌋ else ⌊x⌋ + 1

/-- `round(q, 2)`. -/
def round2 (q : ℚ) : ℚ := (roundHalfEven (q * 100) : ℚ) / 100

/-! ## worker/batch/csv_slot_filter.py -/

namespace CsvSlotFilter

/-! ### Cells and rows

A spreadsheet cell is classified by how the two parsers of the source
behave on it: `num q` stands for the values `float()` accepts (numbers and
numeric strings; `_parse_time_to_seconds` then also returns `q`);
`timeStr sec` stands for `datetime.time` objects and clock-like strings
(`"HH:MM"`, `"MM:SS"`, `"H:M:S"`), on which `float()` fails and
`_parse_time_to_seconds` returns `sec` by the source's arithmetic;
`junk` stands for `None` and any other unparseable value. -/
inductive Cell where
  | num (q : ℚ)
  | timeStr (sec : ℚ)
  | junk
deriving DecidableEq

/-- A row of the spreadsheet: a dict from raw header strings to cells. -/
abbrev Row := List (String × Cell)

/-- Python `entry.get(key)`: `some` cell, or `none` when the key is absent. -/
def rget (entry : Row) (k : String) : Option Cell := entry.lookup k

/-- `_safe_float(entry.get(key))`: `float()` of the cell, `None` on
failure or absence. -/
def _safe_float : Option Cell → Option ℚ
  | some (.num q) => some q
  | _ => none

/-- `_parse_time_to_seconds(entry.get(key))`: seconds for numeric values
and clock-like values, `None` otherwise. -/
def _parse_time_to_seconds : Option Cell → Option ℚ
  | some (.num q) => some q
  | some (.timeStr sec) => some sec
  | _ => none

/-- The map `{k.lower(): k for k in entry.keys()}` applied to one lowered
candidate: the LAST key whose lowering equals `l` (a later duplicate
overwrites an earlier one in the Python dict comprehension). -/
def lowerKeyLookup (entry : Row) (l : String) : Option String :=
  entry.foldl (fun acc kv => if strLower kv.1 = l then some kv.1 else acc) none

/-- `_find_key(entry, candidate_keys)`: the first candidate with a header
present case-insensitively, returned as the actual header. -/
def _find_key (entry : Row) : List String → Option String
  | [] => none
  | ck :: rest =>
    match lowerKeyLookup entry (strLower ck) with
    | some k => some k
    | none => _find_key entry rest

/-! ### The multilingual KPI alias table (`KPI_ALIASES`) -/

def gmvAliases : List String :=
  ["GMV", "gmv", "売上", "成交金额", "成交金額", "销售额", "銷售額",
   "Revenue", "revenue", "Sales", "sales",
   "매출액", "매출", "Doanh thu", "doanh thu",
   "ยอดขาย", "Pendapatan", "pendapatan"]

def orderCountAliases : List String :=
  ["注文", "SKU注文数", "订单数", "訂單數", "成交件数", "成交件數",
   "SKU订单数", "SKU訂單數",
   "Orders", "orders", "Order Count", "order_count", "SKU Orders",
   "주문수", "주문", "Đơn hàng", "Số đơn hàng",
   "คำสั่งซื้อ", "Pesanan", "pesanan", "Jumlah Pesanan"]

def viewerCountAliases : List String :=
  ["視聴者", "視聴者数", "視聴数", "视聴者",
   "观看人数", "观众数", "在线人数", "觀看人數", "觀眾數",
   "Viewers", "viewers", "Viewer Count", "viewer_count",
   "Live Viewers", "live_viewers",
   "시청자", "시청자수", "Người xem", "Lượt xem",
   "ผู้ชม", "Penonton", "penonton", "Jumlah Penonton"]

def gpmAliases : List String :=
  ["視聴GPM", "表示GPM", "GPM", "gpm",
   "千次观看成交金额", "千次觀看成交金額",
   "gmv_per_1k_views", "GMV per 1K Views",
   "GPM"]

def ctorAliases : List String :=
  ["CTOR", "ctor", "CTOR（SKU注文数）", "CVR", "cvr",
   "点击成交转化率", "點擊成交轉化率",
   "Click Through Order Rate", "click_conversion",
   "전환율", "Tỷ lệ chuyển đổi"]

def liveCtrAliases : List String :=
  ["LIVE CTR", "live_ctr", "直播点击率", "直播點擊率",
   "Live Click Through Rate", "click_rate"]

def commentRateAliases : List String :=
  ["コメント率", "评论率", "評論率",
   "Comment Rate", "comment_rate",
   "댓글률", "Tỷ lệ bình luận"]

def newFollowersAliases : List String :=
  ["新規フォロワー数", "新增粉丝数", "新增关注", "新增粉絲數",
   "New Followers", "new_followers", "Follower Gain",
   "신규 팔로워", "새 팔로워", "Người theo dõi mới",
   "ผู้ติดตามใหม่", "Pengikut Baru", "pengikut baru"]

def timeAliases : List String :=
  ["時間", "时间", "時間",
   "Time", "time", "Timestamp", "timestamp",
   "시간", "Thời gian", "เวลา", "Waktu", "waktu"]

/-! ### Scoring rules (`RULES`) -/

/-- One entry of `RULES`: `{name, description, keys, condition, weight}`.
The condition is the literal string the source compares against
(`"gt_zero"` / `"above_mean"`). -/
structure ScoringRule where
  name : String
  description : String
  keys : List String
  condition : String
  weight : ℤ
deriving DecidableEq

def RULES : List ScoringRule :=
  [⟨"high_gmv", "GMVが高い（売上発生）", gmvAliases, "gt_zero", 3⟩,
   ⟨"high_orders", "成約件数が多い", orderCountAliases, "gt_zero", 3⟩,
   ⟨"high_conversion", "クリック成交転化率が高い", ctorAliases, "above_mean", 2⟩,
   ⟨"high_gmv_per_view", "千次観看成交金額が高い", gpmAliases, "above_mean", 2⟩,
   ⟨"high_viewers", "観看人数が多い", viewerCountAliases, "above_mean", 1⟩,
   ⟨"high_comments", "コメント率が高い", commentRateAliases, "above_mean", 1⟩,
   ⟨"high_click_rate", "直播点击率が高い", liveCtrAliases, "above_mean", 1⟩,
   ⟨"new_followers", "新規フォロワー獲得", newFollowersAliases, "gt_zero", 2⟩]

/-- The fallback word list of `_detect_time_key`. -/
def timeWords : List String :=
  ["时间", "時間", "time", "timestamp", "시간", "waktu", "เวลา"]

/-- `_detect_time_key(entries)`: try the canonical time aliases on the
first row, else the first header containing one of the fallback words. -/
def _detect_time_key (trends : List Row) : Option String :=
  match trends with
  | [] => none
  | sample :: _ =>
    match _find_key sample timeAliases with
    | some k => some k
    | none =>
      (sample.map Prod.fst).find? fun k =>
        timeWords.any fun w => strContainsSub (strLower k) w

/-- One entry of the `all_values` dict: the resolved column plus the mean
of the parseable values of that column.  (`all_values` is keyed by the rule
name; the names in `RULES` are pairwise distinct, so keying by the rule
itself is the same map.) -/
structure RuleInfo where
  key : String
  mean : ℚ
  values : List ℚ
deriving DecidableEq

/-- All parseable values of column `k` over the rows. -/
def ruleValues (trends : List Row) (k : String) : List ℚ :=
  trends.filterMap fun t => _safe_float (rget t k)

/-- The `all_values` entry for one rule: resolve the rule's column against
the first row; keep it when at least one row parses, with the arithmetic
mean of the parseable values. -/
def allValuesFor (trends : List Row) (rule : ScoringRule) : Option RuleInfo :=
  match trends with
  | [] => none
  | t0 :: _ =>
    match _find_key t0 rule.keys with
    | none => none
    | some k =>
      let vals := ruleValues trends k
      if vals = [] then none
      else some ⟨k, vals.sum / vals.length, vals⟩

/-- One scored slot: `{time_sec, score, matched_rules, raw_entry}`.  (The
`time_key` display label, `str(time_val)`, is informational only — the
source never reads it back — and is not modelled.) -/
structure ScoredSlot where
  time_sec : ℚ
  score : ℤ
  matched_rules : List String
  raw_entry : Row
deriving DecidableEq

/-- Whether one rule triggers on one row (the branch structure of the
scoring loop, factored out of `scoreStep`): the rule must have an
`all_values` entry, the row's cell for the resolved column must parse, and
the condition must hold — `val > 0` for `"gt_zero"`, `val > mean` for
`"above_mean"`. -/
def ruleTriggers (trends : List Row) (entry : Row) (rule : ScoringRule) : Bool :=
  match allValuesFor trends rule with
  | none => false
  | some info =>
    match _safe_float (rget entry info.key) with
    | none => false
    | some v =>
      if rule.condition = "gt_zero" then decide (0 < v)
      else if rule.condition = "above_mean" then decide (info.mean < v)
      else false

/-- The body of the per-rule scoring loop: the rule-info and parse
failures of the source `continue` (leave the accumulator unchanged), which
is the `false` outcome of `ruleTriggers`; a triggered rule adds its weight
to the score and appends its name to the matched list. -/
def scoreStep (trends : List Row) (entry : Row) (acc : ℤ × List String)
    (rule : ScoringRule) : ℤ × List String :=
  if ruleTriggers trends entry rule then (acc.1 + rule.weight, acc.2 ++ [rule.name])
  else acc

/-- `compute_slot_scores(trends)`: empty input or no detected time column
gives `[]`; otherwise each row with a parseable time becomes a slot scored
by the rule loop. -/
def compute_slot_scores (trends : List Row) : List ScoredSlot :=
  match _detect_time_key trends with
  | none => []
  | some time_key =>
    trends.filterMap fun entry =>
      match _parse_time_to_seconds (rget entry time_key) with
      | none => none
      | some time_sec =>
        let s := RULES.foldl (scoreStep trends entry) (0, [])
        some ⟨time_sec, s.1, s.2, entry⟩

/-! ### The range merger -/

/-- One entry of the range dicts built by `get_important_time_ranges` and
consumed by `_merge_overlapping_ranges`:
`{start_sec, end_sec, start_frame, end_frame, score, reasons}`.
`reasons` is built by `list(set(a + b))` in Python, i.e. it is a set of
rule names; it is modelled as a `Finset String`.  (The informational
`slot_time` label is write-only in the source and is not modelled.) -/
structure TimeRange where
  start_sec : ℚ
  end_sec : ℚ
  start_frame : ℤ
  end_frame : ℤ
  score : ℤ
  reasons : Finset String
deriving DecidableEq

/-- The merge of range `r` into the accumulated range `last`
(`csv_slot_filter.py` lines 483–488): keep `last`'s start, take the max of
the ends and scores, union the reasons. -/
def mergeInto (last r : TimeRange) : TimeRange :=
  { last with
      end_sec := max last.end_sec r.end_sec
      end_frame := max last.end_frame r.end_frame
      score := max last.score r.score
      reasons := last.reasons ∪ r.reasons }

/-- The walk of `_merge_overlapping_ranges` over the tail of the sorted
list, carrying the last accumulated range: merge when the current range
starts at or before the accumulated end, else emit and start fresh. -/
def mergeSorted (last : TimeRange) : List TimeRange → List TimeRange
  | [] => [last]
  | r :: rest =>
    if r.start_sec ≤ last.end_sec then mergeSorted (mergeInto last r) rest
    else last :: mergeSorted r rest

/-- `_merge_overlapping_ranges(ranges)`: empty input gives `[]`; otherwise
sort by `start_sec` (stably, as Python's `sorted`) and fold the walk. -/
def _merge_overlapping_ranges (ranges : List TimeRange) : List TimeRange :=
  match pySorted TimeRange.start_sec ranges with
  | [] => []
  | r0 :: rest => mergeSorted r0 rest

/-- The set of seconds covered by a list of ranges (each range covering the
closed interval from its start to its end). -/
def covered (rs : List TimeRange) : Set ℚ :=
  {x | ∃ r ∈ rs, r.start_sec ≤ x ∧ x ≤ r.end_sec}

/-- Starts are compared by `start_sec` when sorting. -/
abbrev sLE (a b : TimeRange) : Prop := a.start_sec ≤ b.start_sec

/-- `get_important_time_ranges(trends, video_duration_sec,
video_start_time_sec=None, margin_sec=600, min_score=1)`: score the slots;
estimate the video start from the first scored slot when none is given;
keep slots with `score ≥ min_score`; expand each kept slot by the margin,
clip to `[0, video_duration_sec]` (`max(0, ·)` / `min(duration, ·)`), and
merge. -/
def get_important_time_ranges (trends : List Row) (video_duration_sec : ℚ)
    (video_start_time_sec : Option ℚ := none) (margin_sec : ℚ := 600)
    (min_score : ℤ := 1) : List TimeRange :=
  match compute_slot_scores trends with
  | [] => []
  | s0 :: srest =>
    let vstart := video_start_time_sec.getD s0.time_sec
    let important := (s0 :: srest).filter fun s => min_score ≤ s.score
    if important = [] then []
    else
      let ranges := important.map fun slot =>
        let slot_video_sec := slot.time_sec - vstart
        let range_start := max 0 (slot_video_sec - margin_sec)
        let range_end := min video_duration_sec (slot_video_sec + margin_sec)
        (⟨range_start, range_end, pyInt range_start, pyInt range_end,
          slot.score, slot.matched_rules.toFinset⟩ : TimeRange)
      _merge_overlapping_ranges ranges

end CsvSlotFilter

/-! ## worker/batch/product_detection_pipeline.py -/

namespace ProductDetection

/-- One detection of `detected_products`:
`{product_name, confidence, detection_reason}`. -/
structure FrameDet where
  product_name : String
  confidence : ℚ
  detection_reason : String
deriving DecidableEq

/-- One exposure segment.  The source builds these as dicts without an
`audio_confirmed` key until fusion sets it; every reader treats the absent
key as falsy, so the absent state is modelled as `false`. -/
structure Exposure where
  product_name : String
  brand_name : String
  time_start : ℚ
  time_end : ℚ
  confidence : ℚ
  audio_confirmed : Bool
deriving DecidableEq

/-- Append a surviving detection `(frame, confidence)` to its product's
list in the `product_frames` dict (insertion order preserved). -/
def addDetection (pf : List (String × List (ℕ × ℚ))) (name : String)
    (fc : ℕ × ℚ) : List (String × List (ℕ × ℚ)) :=
  match pf with
  | [] => [(name, [fc])]
  | (n, l) :: rest =>
    if n = name then (n, l ++ [fc]) :: rest else (n, l) :: addDetection rest name fc

/-- The `product_frames` accumulation of `merge_detections_to_timeline`:
walk the frames in sorted order; drop `background_only` detections, empty
names and confidences below the threshold. -/
def product_frames (frame_detections : List (ℕ × List FrameDet))
    (confidence_threshold : ℚ) : List (String × List (ℕ × ℚ)) :=
  (pySorted Prod.fst frame_detections).foldl
    (fun pf fd =>
      fd.2.foldl
        (fun pf det =>
          if det.detection_reason = "background_only" then pf
          else if det.product_name = "" ∨ det.confidence < confidence_threshold then pf
          else addDetection pf det.product_name (fd.1, det.confidence))
        pf)
    []

/-- `gap_tolerance = sample_interval * 2 + 1`. -/
def gapTolerance (sample_interval : ℕ) : ℤ := 2 * sample_interval + 1

/-- The inner segmentation loop of `merge_detections_to_timeline`, carrying
the open segment `(seg_start, seg_end, seg_confs)`: extend while the gap to
the previous detected frame is within the tolerance, else close the
segment and start a new one at the current frame. -/
def buildSegs (tol : ℤ) (s e : ℕ) (confs : List ℚ) :
    List (ℕ × ℚ) → List (ℕ × ℕ × List ℚ)
  | [] => [(s, e, confs)]
  | (f, c) :: rest =>
    if (f : ℤ) - e ≤ tol then buildSegs tol s f (confs ++ [c]) rest
    else (s, e, confs) :: buildSegs tol f f [c] rest

/-- The segments of one product's frame list: sort by frame (the source
sorts, though the list is already in frame order), open the first segment
at the first frame and run the loop. -/
def segsFor (tol : ℤ) (frames : List (ℕ × ℚ)) : List (ℕ × ℕ × List ℚ) :=
  match pySorted Prod.fst frames with
  | [] => []
  | (f, c) :: rest => buildSegs tol f f [c] rest

/-- `merge_detections_to_timeline(frame_detections, sample_interval=5,
min_duration=8.0, confidence_threshold=0.5)`: group surviving detections by
product, segment each product's frames by the gap tolerance, extend each
segment's end by one sampling interval, drop segments shorter than the
minimum duration, average the member confidences (rounded to 2 decimals),
and sort the result by start time. -/
def merge_detections_to_timeline (frame_detections : List (ℕ × List FrameDet))
    (sample_interval : ℕ := 5) (min_duration : ℚ := 8)
    (confidence_threshold : ℚ := 1/2) : List Exposure :=
  let pf := product_frames frame_detections confidence_threshold
  let exposures := pf.foldl
    (fun acc nf =>
      acc ++ (segsFor (gapTolerance sample_interval) nf.2).filterMap fun seg =>
        let time_start : ℚ := (seg.1 : ℚ)
        let time_end : ℚ := ((seg.2.1 + sample_interval : ℕ) : ℚ)
        if time_end - time_start < min_duration then none
        else some ⟨nf.1, "", time_start, time_end,
          round2 (seg.2.2.sum / seg.2.2.length), false⟩)
    []
  pySorted Exposure.time_start exposures

/-- The decomposition of a frame list into maximal runs whose consecutive
gaps stay within the tolerance: the reference segmentation that
`buildSegs` is proved to compute. -/
def splitRuns (tol : ℤ) : List (ℕ × ℚ) → List (List (ℕ × ℚ))
  | [] => []
  | x :: xs =>
    match splitRuns tol xs with
    | [] => [[x]]
    | [] :: rss => [x] :: [] :: rss
    | (y :: ys) :: rss =>
      if (y.1 : ℤ) - x.1 ≤ tol then (x :: y :: ys) :: rss
      else [x] :: (y :: ys) :: rss

/-- A run summarised as the segment triple the source carries:
(first frame, last frame, confidences in order). -/
def runSummary (run : List (ℕ × ℚ)) : ℕ × ℕ × List ℚ :=
  ((run.headD (0, 0)).1, (run.getLastD (0, 0)).1, run.map Prod.snd)

/-! ### Multi-modal fusion (`enrich_with_transcription`) -/

/-- One Whisper transcript segment `{start, end, text}` (`stop` models the
`"end"` key; `end` is a Lean keyword). -/
structure TranscriptSeg where
  start : ℚ
  stop : ℚ
  text : String
deriving DecidableEq

/-- One product of the product list, after the source's
`p.get("product_name", p.get("name", p.get("商品名", ...)))` key-fallback
chain has been applied (the claims do not exercise the fallback itself). -/
structure Product where
  product_name : String
  brand_name : String
deriving DecidableEq

/-- The `skip_words` set of `enrich_with_transcription`. -/
def skipWords : List String :=
  ["kyogoku", "the", "and", "for", "pro", "用", "式", "型"]

/-- The delimiter class of `re.split(r'[\s　・/\-]+', name)`: ASCII
whitespace (`\s`), ideographic space, `・`, `/`, `-`.  (Python's `\s` also
matches other Unicode spaces; none occurs in this code base's data.) -/
def isKwDelim (c : Char) : Bool :=
  c = ' ' || c = '\t' || c = '\n' || c = '\r' || c = '\x0b' || c = '\x0c' ||
    c = '　' || c = '・' || c = '/' || c = '-'

/-- The token keywords of a product name: split on the delimiter class,
strip and lower each word, keep those of length ≥ 3 outside `skip_words`. -/
def keywordTokens (name : String) : List String :=
  (splitCharsOn isKwDelim name.data).filterMap fun w =>
    let w' := strLower (strStrip w)
    if 3 ≤ w'.length ∧ w' ∉ skipWords then some w' else none

/-- Insert-or-replace in an association list (Python dict assignment:
an existing key keeps its position, a new key goes to the end). -/
def assocSet {β : Type} (l : List (String × β)) (k : String) (v : β) :
    List (String × β) :=
  match l with
  | [] => [(k, v)]
  | (k', v') :: rest =>
    if k' = k then (k, v) :: rest else (k', v') :: assocSet rest k v

/-- `product_keywords`: per product name, the deduplicated keyword list —
full lowered name, lowered brand (when present), and the token keywords.
(Python stores `list(set(keywords))`, whose order is unspecified;
`List.dedup` fixes the deterministic representative keeping first
occurrences.  Every use of the list is order-insensitive: existence of a
match and the count of distinct matching keywords.) -/
def productKeywords (ps : List Product) : List (String × List String) :=
  ps.foldl
    (fun pk p =>
      if p.product_name = "" then pk
      else
        let kws := [strLower p.product_name] ++
          (if p.brand_name ≠ "" then [strLower p.brand_name] else []) ++
          keywordTokens p.product_name
        assocSet pk p.product_name kws.dedup)
    []

/-- `product_keywords.get(product_name, [product_name.lower()])`. -/
def keywordsFor (pk : List (String × List String)) (name : String) :
    List String :=
  ((pk.lookup name).getD [strLower name])

/-- `get_transcript_text(time_start, time_end, margin=10.0)`: the texts of
all transcript segments overlapping the margin-padded window, joined with
spaces and lowered. -/
def get_transcript_text (ts : List TranscriptSeg) (time_start time_end : ℚ)
    (margin : ℚ := 10) : String :=
  strLower (String.intercalate " "
    ((ts.filter fun seg =>
        time_start - margin ≤ seg.stop ∧ seg.start ≤ time_end + margin).map
      TranscriptSeg.text))

/-- The number of keywords occurring (as substrings) in the text. -/
def matchCount (keywords : List String) (text : String) : ℕ :=
  (keywords.filter fun kw => strContainsSub text kw).length

/-- `check_audio_mention(product_name, transcript_text)`:
`(match_count > 0, match_count)`; empty text short-circuits to
`(False, 0)`. -/
def check_audio_mention (pk : List (String × List String)) (name text : String) :
    Bool × ℕ :=
  if text = "" then (false, 0)
  else
    let c := matchCount (keywordsFor pk name) text
    (decide (0 < c), c)

/-- The per-exposure update of `enrich_with_transcription`: boost
`min(1.0, conf + min(0.20, match_count * 0.08))` and set
`audio_confirmed = True` on a mention, else penalise
`round(conf * 0.6, 2)` and set `audio_confirmed = False`. -/
def enrichExposure (ts : List TranscriptSeg) (pk : List (String × List String))
    (exp : Exposure) : Exposure :=
  let text := get_transcript_text ts exp.time_start exp.time_end
  let mc := check_audio_mention pk exp.product_name text
  if mc.1 then
    { exp with
        confidence := min 1 (exp.confidence + min (1/5) ((mc.2 : ℚ) * (2/25)))
        audio_confirmed := true }
  else
    { exp with
        confidence := round2 (exp.confidence * (3/5))
        audio_confirmed := false }

/-- The audio-only scan: for each transcript segment and each product (in
dict order) with some keyword of length ≥ 3 occurring in the segment's
lowered text, add a fixed-confidence audio-only exposure unless an
exposure of that product overlaps the segment within the 10-second
tolerance (`overlap > -10`). -/
def audioOnlyDetections (exposures : List Exposure) (ts : List TranscriptSeg)
    (pk : List (String × List String)) : List Exposure :=
  ts.foldl
    (fun acc seg =>
      acc ++ pk.filterMap fun nkws =>
        if nkws.2.any (fun kw => strContainsSub (strLower seg.text) kw &&
            decide (3 ≤ kw.length)) then
          if exposures.any (fun exp => exp.product_name = nkws.1 &&
              decide ((-10 : ℚ) <
                min exp.time_end seg.stop - max exp.time_start seg.start)) then
            none
          else some ⟨nkws.1, "", seg.start, seg.stop, 11/20, true⟩
        else none)
    []

/-- `enrich_with_transcription(exposures, transcription_segments,
product_list)`: return unchanged when either list is empty; otherwise apply
the per-exposure audio boost/penalty, append the audio-only detections and
re-sort by start time. -/
def enrich_with_transcription (exposures : List Exposure)
    (ts : List TranscriptSeg) (ps : List Product) : List Exposure :=
  if ts = [] ∨ ps = [] then exposures
  else
    let pk := productKeywords ps
    let enriched := exposures.map (enrichExposure ts pk)
    let audio := audioOnlyDetections enriched ts pk
    pySorted Exposure.time_start (enriched ++ audio)

end ProductDetection

/-! ## worker/batch/grouping_pipeline.py -/

namespace Grouping

/-- `np.dot` on equal-length vectors. -/
def dotV (a b : List ℝ) : ℝ := (List.zipWith (fun x y => x * y) a b).sum

/-- `np.linalg.norm(v)`: the L2 norm. -/
noncomputable def l2norm (v : List ℝ) : ℝ :=
  Real.sqrt ((v.map fun x => x ^ 2).sum)

/-- `l2_normalize(v)`: return `v` unchanged when its norm is zero, else
divide by the norm. -/
noncomputable def l2_normalize (v : List ℝ) : List ℝ :=
  if l2norm v = 0 then v else v.map fun x => x / l2norm v

/-- `cosine(a, b) = float(np.dot(a, b))`. -/
def cosine (a b : List ℝ) : ℝ := dotV a b

/-- `COSINE_THRESHOLD = 0.82`. -/
noncomputable def COSINE_THRESHOLD : ℝ := 82 / 100

/-- One cluster group `{group_id, centroid, size}`. -/
structure Group where
  group_id : ℕ
  centroid : List ℝ
  size : ℕ

open Classical in
/-- The best-group scan of `assign_phases_to_groups`: `best_group = None;
best_score = -1.0; take each strictly better score`.  Returns the index of
the best group and its score. -/
noncomputable def bestGroupIdx (groups : List Group) (v : List ℝ) :
    Option ℕ × ℝ :=
  (groups.enum).foldl
    (fun acc ig =>
      if acc.2 < cosine v ig.2.centroid then (some ig.1, cosine v ig.2.centroid)
      else acc)
    (none, -1)

/-- The centroid update `(centroid * n + v) / (n + 1)` (numpy
element-wise). -/
noncomputable def centroidUpdate (c v : List ℝ) (n : ℕ) : List ℝ :=
  List.zipWith (fun ci vi => (ci * n + vi) / ((n : ℝ) + 1)) c v

open Classical in
/-- One step of `assign_phases_to_groups`: join the best group when one
exists with score ≥ threshold (renormalised running-mean centroid, size+1,
inherit its id), else create a new group with id `len(groups) + 1`.
Returns the assigned `group_id` and the updated group list. -/
noncomputable def assignOne (groups : List Group) (v : List ℝ) :
    ℕ × List Group :=
  match bestGroupIdx groups v with
  | (some i, score) =>
    if COSINE_THRESHOLD ≤ score then
      match groups.get? i with
      | some g =>
        (g.group_id,
          groups.set i
            { g with
                centroid := l2_normalize (centroidUpdate g.centroid v g.size)
                size := g.size + 1 })
      | none => (groups.length + 1, groups ++ [⟨groups.length + 1, v, 1⟩])
    else (groups.length + 1, groups ++ [⟨groups.length + 1, v, 1⟩])
  | (none, _) => (groups.length + 1, groups ++ [⟨groups.length + 1, v, 1⟩])

/-- `assign_phases_to_groups(phase_units, groups)`, with each phase unit
represented by its embedding (the function reads `p["embedding"]` and
writes `p["group_id"]`): the assigned ids in order, and the final group
list. -/
noncomputable def assign_phases_to_groups (embeddings : List (List ℝ))
    (groups : List Group) : List ℕ × List Group :=
  match embeddings with
  | [] => ([], groups)
  | v :: rest =>
    let r := assignOne groups v
    let r' := assign_phases_to_groups rest r.2
    (r.1 :: r'.1, r'.2)

end Grouping

/-! ## worker/controller/simple_worker.py -/

namespace SimpleWorker

/-- A parsed queue payload, after the source's
`job_id = payload.get("video_id", payload.get("clip_id", "unknown"))`
extraction. -/
structure Payload where
  job_type : String
  job_id : String
deriving DecidableEq

/-- A queue message: its queue identity (for `delete_message`) and its
payload — `none` when `json.loads` fails, in which case the message is
neither deleted nor dispatched. -/
structure Msg where
  msg_id : ℕ
  payload : Option Payload
deriving DecidableEq

/-- The scheduler state: `active` is the `active_jobs` dict
(`job_id → future.done()`), `running` the job ids currently executing in
the pool, `executed` the `executor.submit` history and `deleted` the
`delete_message` history. -/
structure WState where
  active : List (String × Bool)
  running : List String
  executed : List String
  deleted : List ℕ
deriving DecidableEq

/-- `job_id in active_jobs and not active_jobs[job_id].done()`. -/
def isActiveNotDone (m : List (String × Bool)) (j : String) : Bool :=
  match m.lookup j with
  | some d => !d
  | none => false

/-- `active_jobs[job_id] = future` for a fresh (not-done) future: replace
an existing binding in place, else append. -/
def insertActive (m : List (String × Bool)) (j : String) :
    List (String × Bool) :=
  match m with
  | [] => [(j, false)]
  | (k, d) :: rest =>
    if k = j then (j, false) :: rest else (k, d) :: insertActive rest j

/-- The cleanup of `get_active_count`: drop the completed futures. -/
def cleanupActive (m : List (String × Bool)) : List (String × Bool) :=
  m.filter fun kv => !kv.2

/-- `get_active_count()`: clean up, then count. -/
def get_active_count (m : List (String × Bool)) : ℕ := (cleanupActive m).length

/-- The per-message body of `poll_and_process`: skip (neither delete nor
dispatch) on a parse failure, and on a job id that is active and not done;
otherwise delete the message, submit the job and record it as active and
running. -/
def processMsg (s : WState) (msg : Msg) : WState :=
  match msg.payload with
  | none => s
  | some p =>
    if isActiveNotDone s.active p.job_id then s
    else
      { active := insertActive s.active p.job_id
        running := s.running ++ [p.job_id]
        executed := s.executed ++ [p.job_id]
        deleted := s.deleted ++ [msg.msg_id] }

/-- `poll_and_process(executor)`: clean up and count the active jobs;
return when no worker slot is free; otherwise receive messages — the queue
is an external collaborator, modelled as the function `fetch` from the
requested batch size `min(available_slots, 5)` to the returned messages —
and process each in order. -/
def poll_and_process (max_workers : ℕ) (fetch : ℕ → List Msg) (s : WState) :
    WState :=
  let cleaned := cleanupActive s.active
  let s' := { s with active := cleaned }
  if max_workers ≤ cleaned.length then s'
  else (fetch (min (max_workers - cleaned.length) 5)).foldl processMsg s'

/-- A job finishing: `process_job`'s `finally` pops the job from
`active_jobs`, and the worker thread leaves the pool. -/
def finishJob (s : WState) (j : String) : WState :=
  { s with
      running := s.running.erase j
      active := s.active.filter fun kv => kv.1 ≠ j }

/-- One scheduler event: a poll cycle (with the queue's response function)
or the completion of a running job. -/
inductive WStep where
  | poll (fetch : ℕ → List Msg)
  | finish (j : String)

/-- Run one event. -/
def stepRun (max_workers : ℕ) (s : WState) : WStep → WState
  | .poll fetch => poll_and_process max_workers fetch s
  | .finish j => finishJob s j

/-- Run a trace of events from the initial (empty) scheduler state. -/
def runTrace (max_workers : ℕ) (steps : List WStep) : WState :=
  steps.foldl (stepRun max_workers) ⟨[], [], [], []⟩

/-- The queue contract of a trace event: a receive call returns at most
the requested number of messages (spec §4.7/§6); completions are
unconstrained. -/
def StepContract : WStep → Prop
  | .poll fetch => ∀ k, (fetch k).length ≤ k
  | .finish _ => True

end SimpleWorker

/-! # Theorems -/

/-! ## The range merger (claims C3, C4) -/

namespace CsvSlotFilter

theorem mergeSorted_ne_nil (last : TimeRange) (rest : List TimeRange) :
    mergeSorted last rest ≠ [] := by
  induction rest generalizing last with
  | nil => simp [mergeSorted]
  | cons r rest ih =>
    by_cases h : r.start_sec ≤ last.end_sec <;> simp [mergeSorted, h, ih]

theorem mergeSorted_head_start (last : TimeRange) (rest : List TimeRange) :
    ∃ x t, mergeSorted last rest = x :: t ∧ x.start_sec = last.start_sec := by
  induction rest generalizing last with
  | nil => exact ⟨last, [], rfl, rfl⟩
  | cons r rest ih =>
    by_cases h : r.start_sec ≤ last.end_sec
    · obtain ⟨x, t, hx, hs⟩ := ih (mergeInto last r)
      exact ⟨x, t, by simpa [mergeSorted, h] using hx, by rw [hs]; rfl⟩
    · exact ⟨last, mergeSorted r rest, by simp [mergeSorted, h], rfl⟩

/-- Output ranges are separated: each emitted range ends strictly before
the next one starts.  This needs no hypothesis on the input. -/
theorem mergeSorted_chain_sep (last : TimeRange) (rest : List TimeRange) :
    List.Chain' (fun a b => a.end_sec < b.start_sec) (mergeSorted last rest) := by
  induction rest generalizing last with
  | nil => simp [mergeSorted]
  | cons r rest ih =>
    by_cases h : r.start_sec ≤ last.end_sec
    · simpa [mergeSorted, h] using ih (mergeInto last r)
    · obtain ⟨x, t, hx, hs⟩ := mergeSorted_head_start r rest
      rw [mergeSorted, if_neg h, hx]
      exact List.Chain'.cons (by rw [hs]; exact lt_of_not_le h) (hx ▸ ih r)

/-- The walk preserves sortedness by `start_sec`. -/
theorem mergeSorted_chain_sorted (last : TimeRange) (rest : List TimeRange)
    (h : List.Chain' sLE (last :: rest)) :
    List.Chain' sLE (mergeSorted last rest) := by
  induction rest generalizing last with
  | nil => simp [mergeSorted]
  | cons r rest ih =>
    rw [List.chain'_cons] at h
    obtain ⟨hlr, hr⟩ := h
    by_cases hm : r.start_sec ≤ last.end_sec
    · rw [mergeSorted, if_pos hm]
      refine ih (mergeInto last r) ?_
      cases rest with
      | nil => simp
      | cons s rest' =>
        rw [List.chain'_cons] at hr ⊢
        exact ⟨le_trans hlr hr.1, hr.2⟩
    · rw [mergeSorted, if_neg hm]
      obtain ⟨x, t, hx, hs⟩ := mergeSorted_head_start r rest
      rw [hx]
      refine List.Chain'.cons ?_ (hx ▸ ih r hr)
      show last.start_sec ≤ x.start_sec
      rw [hs]; exact hlr

theorem covered_cons (r : TimeRange) (rs : List TimeRange) :
    covered (r :: rs) = {x | r.start_sec ≤ x ∧ x ≤ r.end_sec} ∪ covered rs := by
  ext x
  simp only [covered, Set.mem_setOf_eq, Set.mem_union, List.mem_cons]
  constructor
  · rintro ⟨q, (rfl | hq), hx⟩
    · exact Or.inl hx
    · exact Or.inr ⟨q, hq, hx⟩
  · rintro (hx | ⟨q, hq, hx⟩)
    · exact ⟨r, Or.inl rfl, hx⟩
    · exact ⟨q, Or.inr hq, hx⟩

theorem covered_perm {rs rs' : List TimeRange} (h : rs.Perm rs') :
    covered rs = covered rs' := by
  ext x
  simp only [covered, Set.mem_setOf_eq]
  constructor
  · rintro ⟨r, hr, hx⟩; exact ⟨r, h.mem_iff.mp hr, hx⟩
  · rintro ⟨r, hr, hx⟩; exact ⟨r, h.mem_iff.mpr hr, hx⟩

/-- Well-formed ranges: start at or before end. -/
def WFRange (r : TimeRange) : Prop := r.start_sec ≤ r.end_sec

/-- On a sorted, well-formed input, the walk preserves the union of
covered seconds. -/
theorem mergeSorted_covered (last : TimeRange) (rest : List TimeRange)
    (hchain : List.Chain' sLE (last :: rest))
    (hwf : ∀ r ∈ last :: rest, WFRange r) :
    covered (mergeSorted last rest) = covered (last :: rest) := by
  induction rest generalizing last with
  | nil => simp [mergeSorted]
  | cons r rest ih =>
    rw [List.chain'_cons] at hchain
    obtain ⟨hlr, hr⟩ := hchain
    have hwlast : WFRange last := hwf last (by simp)
    have hwr : WFRange r := hwf r (by simp)
    by_cases hm : r.start_sec ≤ last.end_sec
    · rw [mergeSorted, if_pos hm]
      have hchain' : List.Chain' sLE (mergeInto last r :: rest) := by
        cases rest with
        | nil => simp
        | cons s rest' =>
          rw [List.chain'_cons] at hr ⊢
          exact ⟨le_trans hlr hr.1, hr.2⟩
      have hwf' : ∀ q ∈ mergeInto last r :: rest, WFRange q := by
        intro q hq
        rcases List.mem_cons.mp hq with h | h
        · subst h
          exact le_trans hwlast (le_max_left _ _)
        · exact hwf q (by simp [h])
      rw [ih (mergeInto last r) hchain' hwf']
      rw [covered_cons, covered_cons, covered_cons]
      have : {x | (mergeInto last r).start_sec ≤ x ∧ x ≤ (mergeInto last r).end_sec} =
          {x | last.start_sec ≤ x ∧ x ≤ last.end_sec} ∪
            {x | r.start_sec ≤ x ∧ x ≤ r.end_sec} := by
        ext x
        simp only [mergeInto, Set.mem_setOf_eq, Set.mem_union]
        constructor
        · rintro ⟨h1, h2⟩
          rcases le_or_lt x last.end_sec with hc | hc
          · exact Or.inl ⟨h1, hc⟩
          · refine Or.inr ⟨le_of_lt (lt_of_le_of_lt hm hc), ?_⟩
            rcases max_cases last.end_sec r.end_sec with ⟨he, _⟩ | ⟨he, _⟩ <;>
              [exact absurd (he ▸ h2) (not_le_of_lt hc); exact he ▸ h2]
        · rintro (⟨h1, h2⟩ | ⟨h1, h2⟩)
          · exact ⟨h1, le_trans h2 (le_max_left _ _)⟩
          · exact ⟨le_trans hlr h1, le_trans h2 (le_max_right _ _)⟩
      rw [this, Set.union_assoc]
    · rw [mergeSorted, if_neg hm]
      rw [covered_cons, ih r hr (fun q hq => hwf q (List.mem_cons_of_mem _ hq)),
        covered_cons last (r :: rest)]

/-- When consecutive ranges are already separated, the walk copies the
list unchanged. -/
theorem mergeSorted_of_sep (last : TimeRange) (rest : List TimeRange)
    (h : List.Chain' (fun a b => a.end_sec < b.start_sec) (last :: rest)) :
    mergeSorted last rest = last :: rest := by
  induction rest generalizing last with
  | nil => rfl
  | cons r rest ih =>
    rw [List.chain'_cons] at h
    rw [mergeSorted, if_neg (not_le_of_lt h.1), ih r h.2]

theorem sorted_of_merge (rs : List TimeRange) :
    List.Chain' sLE (_merge_overlapping_ranges rs) := by
  unfold _merge_overlapping_ranges
  cases h : pySorted TimeRange.start_sec rs with
  | nil => simp
  | cons r0 rest =>
    have hs : List.Sorted (keyLE TimeRange.start_sec) (r0 :: rest) :=
      h ▸ List.sorted_insertionSort (keyLE TimeRange.start_sec) rs
    exact mergeSorted_chain_sorted r0 rest hs.chain'

theorem sep_of_merge (rs : List TimeRange) :
    List.Chain' (fun a b => a.end_sec < b.start_sec)
      (_merge_overlapping_ranges rs) := by
  unfold _merge_overlapping_ranges
  cases pySorted TimeRange.start_sec rs with
  | nil => simp
  | cons r0 rest => exact mergeSorted_chain_sep r0 rest

end CsvSlotFilter

open CsvSlotFilter in
/-- C3.  Range-merge correctness: on well-formed input (start ≤ end per
range), `_merge_overlapping_ranges` returns ranges sorted ascending by
`start_sec` and pairwise non-adjacent (each range's start strictly greater
than the previous range's end); whenever the current sorted range's
`start_sec` is ≤ the accumulated range's `end_sec` (touching included)
the two are combined with `end_sec = max`, `score = max`,
`reasons = union`; and the union of covered seconds of the output equals
that of the input. -/
theorem c3_range_merge_correct (rs : List TimeRange)
    (hwf : ∀ r ∈ rs, r.start_sec ≤ r.end_sec) :
    List.Chain' (fun a b => a.start_sec ≤ b.start_sec)
      (_merge_overlapping_ranges rs) ∧
    List.Chain' (fun a b => a.end_sec < b.start_sec)
      (_merge_overlapping_ranges rs) ∧
    (∀ last r rest, r.start_sec ≤ last.end_sec →
      mergeSorted last (r :: rest) =
        mergeSorted
          { start_sec := last.start_sec, end_sec := max last.end_sec r.end_sec,
            start_frame := last.start_frame,
            end_frame := max last.end_frame r.end_frame,
            score := max last.score r.score,
            reasons := last.reasons ∪ r.reasons } rest) ∧
    covered (_merge_overlapping_ranges rs) = covered rs := by
  refine ⟨sorted_of_merge rs, sep_of_merge rs, ?_, ?_⟩
  · intro last r rest h
    rw [mergeSorted, if_pos h]
    rfl
  · unfold _merge_overlapping_ranges
    cases h : pySorted TimeRange.start_sec rs with
    | nil =>
      have hperm : ([] : List TimeRange).Perm rs := h ▸ List.perm_insertionSort _ rs
      have hnil : rs = [] := hperm.symm.eq_nil
      subst hnil
      rfl
    | cons r0 rest =>
      have hperm : (r0 :: rest).Perm rs := h ▸ List.perm_insertionSort _ rs
      have hs : List.Sorted (keyLE TimeRange.start_sec) (r0 :: rest) :=
        h ▸ List.sorted_insertionSort (keyLE TimeRange.start_sec) rs
      rw [mergeSorted_covered r0 rest hs.chain'
        (fun q hq => hwf q (hperm.mem_iff.mp hq))]
      exact covered_perm hperm

open CsvSlotFilter in
/-- Witness for C3 at a concrete pair of overlapping ranges. -/
theorem c3_range_merge_correct_witness :
    (∀ r ∈ [(⟨0, 5, 0, 5, 1, {"high_gmv"}⟩ : TimeRange),
        ⟨3, 9, 3, 9, 2, {"high_orders"}⟩], r.start_sec ≤ r.end_sec) ∧
    (List.Chain' (fun a b => a.start_sec ≤ b.start_sec)
        (_merge_overlapping_ranges [⟨0, 5, 0, 5, 1, {"high_gmv"}⟩,
          ⟨3, 9, 3, 9, 2, {"high_orders"}⟩]) ∧
      List.Chain' (fun a b => a.end_sec < b.start_sec)
        (_merge_overlapping_ranges [⟨0, 5, 0, 5, 1, {"high_gmv"}⟩,
          ⟨3, 9, 3, 9, 2, {"high_orders"}⟩]) ∧
      (∀ last r rest, r.start_sec ≤ last.end_sec →
        mergeSorted last (r :: rest) =
          mergeSorted
            { start_sec := last.start_sec, end_sec := max last.end_sec r.end_sec,
              start_frame := last.start_frame,
              end_frame := max last.end_frame r.end_frame,
              score := max last.score r.score,
              reasons := last.reasons ∪ r.reasons } rest) ∧
      covered (_merge_overlapping_ranges [⟨0, 5, 0, 5, 1, {"high_gmv"}⟩,
          ⟨3, 9, 3, 9, 2, {"high_orders"}⟩]) =
        covered [⟨0, 5, 0, 5, 1, {"high_gmv"}⟩,
          ⟨3, 9, 3, 9, 2, {"high_orders"}⟩]) :=
  ⟨by decide, c3_range_merge_correct _ (by decide)⟩

open CsvSlotFilter in
/-- C4.  Range-merge idempotence: merging the merger's own output yields
an equal list, for every input list. -/
theorem c4_range_merge_idempotent (rs : List TimeRange) :
    _merge_overlapping_ranges (_merge_overlapping_ranges rs) =
      _merge_overlapping_ranges rs := by
  have hchain : List.Chain' sLE (_merge_overlapping_ranges rs) :=
    sorted_of_merge rs
  have hsorted : List.Sorted (keyLE TimeRange.start_sec)
      (_merge_overlapping_ranges rs) :=
    List.chain'_iff_pairwise.mp hchain
  have hsep := sep_of_merge rs
  conv_lhs => rw [_merge_overlapping_ranges, pySorted, hsorted.insertionSort_eq]
  cases h : _merge_overlapping_ranges rs with
  | nil => rfl
  | cons r0 rest => exact mergeSorted_of_sep r0 rest (h ▸ hsep)

/-! ## The job scheduler (claims C1, C2) -/

namespace SimpleWorker

theorem lookup_cons {β : Type} (k a : String) (b : β) (l : List (String × β)) :
    List.lookup k ((a, b) :: l) = if k = a then some b else List.lookup k l := by
  by_cases h : k = a
  · simp [List.lookup, h]
  · simp [List.lookup, h, beq_false_of_ne h]

theorem insertActive_cons (a : String) (d : Bool) (rest : List (String × Bool))
    (j : String) :
    insertActive ((a, d) :: rest) j =
      if a = j then (j, false) :: rest else (a, d) :: insertActive rest j := rfl

theorem lookup_insertActive_self (m : List (String × Bool)) (j : String) :
    (insertActive m j).lookup j = some false := by
  induction m with
  | nil => simp [insertActive, lookup_cons]
  | cons kv rest ih =>
    obtain ⟨a, d⟩ := kv
    by_cases h : a = j
    · simp [insertActive_cons, h, lookup_cons]
    · rw [insertActive_cons, if_neg h, lookup_cons, if_neg (fun hj => h hj.symm)]
      exact ih

theorem lookup_insertActive_other (m : List (String × Bool)) (j k : String)
    (h : k ≠ j) : (insertActive m j).lookup k = m.lookup k := by
  induction m with
  | nil => simp [insertActive, lookup_cons, h]
  | cons kv rest ih =>
    obtain ⟨a, d⟩ := kv
    by_cases ha : a = j
    · subst ha
      rw [insertActive_cons, if_pos rfl, lookup_cons, lookup_cons, if_neg h]
      by_cases hk : k = a
      · exact absurd hk h
      · rw [if_neg hk]
    · rw [insertActive_cons, if_neg ha, lookup_cons, lookup_cons]
      by_cases hk : k = a
      · rw [if_pos hk, if_pos hk]
      · rw [if_neg hk, if_neg hk, ih]

theorem lookup_cleanup (m : List (String × Bool)) (k : String)
    (h : m.lookup k = some false) : (cleanupActive m).lookup k = some false := by
  induction m with
  | nil => simp at h
  | cons kv rest ih =>
    obtain ⟨a, d⟩ := kv
    rw [lookup_cons] at h
    by_cases hk : k = a
    · rw [if_pos hk] at h
      have hd : d = false := Option.some.inj h
      subst hd
      simp only [cleanupActive, List.filter_cons]
      rw [show (!(a, false).2) = true from rfl]
      simp only [if_pos trivial]
      rw [lookup_cons, if_pos hk]
    · rw [if_neg hk] at h
      have := ih h
      cases d with
      | false =>
        simp only [cleanupActive, List.filter_cons] at this ⊢
        rw [show (!(a, false).2) = true from rfl]
        simp only [if_pos trivial]
        rw [lookup_cons, if_neg hk]
        exact this
      | true =>
        simp only [cleanupActive, List.filter_cons] at this ⊢
        rw [show (!(a, true).2) = false from rfl]
        simpa using this

theorem lookup_filter_ne (m : List (String × Bool)) (j k : String) (h : k ≠ j) :
    (m.filter fun kv => kv.1 ≠ j).lookup k = m.lookup k := by
  induction m with
  | nil => simp
  | cons kv rest ih =>
    obtain ⟨a, d⟩ := kv
    rw [List.filter_cons]
    by_cases ha : a = j
    · rw [if_neg (by simp [ha]), lookup_cons, if_neg (ha ▸ h), ih]
    · rw [if_pos (by simp [ha]), lookup_cons, lookup_cons]
      by_cases hk : k = a
      · rw [if_pos hk, if_pos hk]
      · rw [if_neg hk, if_neg hk, ih]

/-- Skipping: a message whose job id is active and not done changes
nothing. -/
theorem processMsg_skip (s : WState) (m : Msg) (p : Payload)
    (hp : m.payload = some p)
    (h : isActiveNotDone s.active p.job_id = true) : processMsg s m = s := by
  unfold processMsg
  rw [hp]
  simp [h]

/-- Dispatching: a message whose job id is not active-and-not-done is
deleted, submitted and recorded. -/
theorem processMsg_dispatch (s : WState) (m : Msg) (p : Payload)
    (hp : m.payload = some p)
    (h : isActiveNotDone s.active p.job_id = false) :
    processMsg s m =
      { active := insertActive s.active p.job_id
        running := s.running ++ [p.job_id]
        executed := s.executed ++ [p.job_id]
        deleted := s.deleted ++ [m.msg_id] } := by
  unfold processMsg
  rw [hp]
  simp [h]

/-- The scheduler invariant behind C1: the running jobs are pairwise
distinct, and every running job is recorded active-and-not-done. -/
def Inv (s : WState) : Prop :=
  s.running.Nodup ∧ ∀ j ∈ s.running, isActiveNotDone s.active j = true

theorem inv_processMsg {s : WState} (m : Msg) (h : Inv s) :
    Inv (processMsg s m) := by
  obtain ⟨hnd, hact⟩ := h
  cases hp : m.payload with
  | none =>
    unfold processMsg
    rw [hp]
    exact ⟨hnd, hact⟩
  | some p =>
    cases hdup : isActiveNotDone s.active p.job_id with
    | true => rw [processMsg_skip s m p hp hdup]; exact ⟨hnd, hact⟩
    | false =>
      rw [processMsg_dispatch s m p hp hdup]
      constructor
      · have hnotmem : p.job_id ∉ s.running := fun hmem => by
          rw [hact p.job_id hmem] at hdup
          exact Bool.noConfusion hdup
        simpa [List.nodup_append] using ⟨hnd, hnotmem⟩
      · intro j hj
        rcases List.mem_append.mp hj with hj | hj
        · by_cases hjp : j = p.job_id
          · subst hjp
            simp [isActiveNotDone, lookup_insertActive_self]
          · have := hact j hj
            unfold isActiveNotDone at this ⊢
            rwa [lookup_insertActive_other _ _ _ hjp]
        · obtain rfl : j = p.job_id := by simpa using hj
          simp [isActiveNotDone, lookup_insertActive_self]

theorem inv_cleanup {s : WState} (h : Inv s) :
    Inv { s with active := cleanupActive s.active } := by
  obtain ⟨hnd, hact⟩ := h
  refine ⟨hnd, fun j hj => ?_⟩
  have hj' := hact j hj
  have hl : s.active.lookup j = some false := by
    unfold isActiveNotDone at hj'
    cases hl : s.active.lookup j with
    | none => rw [hl] at hj'; exact absurd hj' (by simp)
    | some d =>
      rw [hl] at hj'
      cases d with
      | true => exact absurd hj' (by simp)
      | false => rfl
  show isActiveNotDone (cleanupActive s.active) j = true
  unfold isActiveNotDone
  rw [lookup_cleanup _ _ hl]
  rfl


theorem inv_foldl {s : WState} (msgs : List Msg) (h : Inv s) :
    Inv (msgs.foldl processMsg s) := by
  induction msgs generalizing s with
  | nil => exact h
  | cons m rest ih => exact ih (inv_processMsg m h)

theorem inv_poll {s : WState} (max_workers : ℕ) (fetch : ℕ → List Msg)
    (h : Inv s) : Inv (poll_and_process max_workers fetch s) := by
  unfold poll_and_process
  by_cases hc : max_workers ≤ (cleanupActive s.active).length
  · simpa [hc] using inv_cleanup h
  · simpa [hc] using inv_foldl _ (inv_cleanup h)

theorem inv_finish {s : WState} (j : String) (h : Inv s) :
    Inv (finishJob s j) := by
  obtain ⟨hnd, hact⟩ := h
  refine ⟨hnd.erase j, fun k hk => ?_⟩
  obtain ⟨hkj, hkmem⟩ := (hnd.mem_erase_iff).mp hk
  have := hact k hkmem
  unfold isActiveNotDone at this ⊢
  rwa [show (finishJob s j).active = s.active.filter (fun kv => kv.1 ≠ j) from rfl,
    lookup_filter_ne s.active j k hkj]

theorem inv_runTrace (max_workers : ℕ) (steps : List WStep) :
    Inv (runTrace max_workers steps) := by
  have hinit : Inv ⟨[], [], [], []⟩ := ⟨List.nodup_nil, by simp⟩
  unfold runTrace
  generalize (⟨[], [], [], []⟩ : WState) = s0 at hinit ⊢
  induction steps generalizing s0 with
  | nil => exact hinit
  | cons st rest ih =>
    refine ih _ ?_
    cases st with
    | poll fetch => exact inv_poll _ _ hinit
    | finish j => exact inv_finish _ hinit

end SimpleWorker

open SimpleWorker in
/-- C1.  Scheduler deduplication, in three parts.
(1) A message whose job id is active and not done is skipped entirely: the
state (including the `delete_message` and `executor.submit` histories) is
unchanged, so the duplicate is neither executed nor deleted.
(2) Two messages carrying the same job id processed from a state in which
that id is not active produce exactly one submission (of that job) and
exactly one deletion (of the first message): the second message is left on
the queue.
(3) Along every event trace of the scheduler, the list of concurrently
running jobs never contains a job id twice. -/
theorem c1_scheduler_dedup :
    (∀ (s : WState) (m : Msg) (p : Payload), m.payload = some p →
        isActiveNotDone s.active p.job_id = true → processMsg s m = s) ∧
    (∀ (s : WState) (m1 m2 : Msg) (p1 p2 : Payload), m1.payload = some p1 →
        m2.payload = some p2 → p2.job_id = p1.job_id →
        isActiveNotDone s.active p1.job_id = false →
        (processMsg (processMsg s m1) m2).executed = s.executed ++ [p1.job_id] ∧
        (processMsg (processMsg s m1) m2).deleted = s.deleted ++ [m1.msg_id]) ∧
    (∀ (max_workers : ℕ) (steps : List WStep),
        (runTrace max_workers steps).running.Nodup) := by
  refine ⟨processMsg_skip, ?_, fun mw steps => (inv_runTrace mw steps).1⟩
  intro s m1 m2 p1 p2 hp1 hp2 hjob hnot
  have h1 := processMsg_dispatch s m1 p1 hp1 hnot
  have h2 : isActiveNotDone (processMsg s m1).active p2.job_id = true := by
    rw [h1, hjob]
    simp [isActiveNotDone, lookup_insertActive_self]
  rw [processMsg_skip (processMsg s m1) m2 p2 hp2 h2, h1]
  exact ⟨rfl, rfl⟩

namespace SimpleWorker

theorem insertActive_length_le (m : List (String × Bool)) (j : String) :
    (insertActive m j).length ≤ m.length + 1 := by
  induction m with
  | nil => simp [insertActive]
  | cons kv rest ih =>
    obtain ⟨a, d⟩ := kv
    by_cases h : a = j
    · simp [insertActive_cons, h]
    · simpa [insertActive_cons, h] using ih

theorem processMsg_active_le (s : WState) (m : Msg) :
    (processMsg s m).active.length ≤ s.active.length + 1 := by
  cases hp : m.payload with
  | none =>
    unfold processMsg
    rw [hp]
    exact Nat.le_succ _
  | some p =>
    cases hdup : isActiveNotDone s.active p.job_id with
    | true => rw [processMsg_skip s m p hp hdup]; exact Nat.le_succ _
    | false =>
      rw [processMsg_dispatch s m p hp hdup]
      exact insertActive_length_le s.active p.job_id

theorem processMsg_executed_le (s : WState) (m : Msg) :
    (processMsg s m).executed.length ≤ s.executed.length + 1 := by
  cases hp : m.payload with
  | none =>
    unfold processMsg
    rw [hp]
    exact Nat.le_succ _
  | some p =>
    cases hdup : isActiveNotDone s.active p.job_id with
    | true => rw [processMsg_skip s m p hp hdup]; exact Nat.le_succ _
    | false =>
      rw [processMsg_dispatch s m p hp hdup]
      simp

theorem foldl_active_le (msgs : List Msg) (s : WState) :
    (msgs.foldl processMsg s).active.length ≤ s.active.length + msgs.length := by
  induction msgs generalizing s with
  | nil => simp
  | cons m rest ih =>
    calc (rest.foldl processMsg (processMsg s m)).active.length
        ≤ (processMsg s m).active.length + rest.length := ih _
      _ ≤ s.active.length + 1 + rest.length :=
          Nat.add_le_add_right (processMsg_active_le s m) _
      _ = s.active.length + (m :: rest).length := by
          simp [List.length_cons]; omega

theorem foldl_executed_le (msgs : List Msg) (s : WState) :
    (msgs.foldl processMsg s).executed.length ≤
      s.executed.length + msgs.length := by
  induction msgs generalizing s with
  | nil => simp
  | cons m rest ih =>
    calc (rest.foldl processMsg (processMsg s m)).executed.length
        ≤ (processMsg s m).executed.length + rest.length := ih _
      _ ≤ s.executed.length + 1 + rest.length :=
          Nat.add_le_add_right (processMsg_executed_le s m) _
      _ = s.executed.length + (m :: rest).length := by
          simp [List.length_cons]; omega

theorem foldl_executed_eq_init (msgs : List Msg) (s : WState) :
    s.executed.length ≤ (msgs.foldl processMsg s).executed.length := by
  induction msgs generalizing s with
  | nil => exact le_refl _
  | cons m rest ih =>
    refine le_trans ?_ (ih (processMsg s m))
    cases hp : m.payload with
    | none => unfold processMsg; rw [hp]
    | some p =>
      cases hdup : isActiveNotDone s.active p.job_id with
      | true => rw [processMsg_skip s m p hp hdup]
      | false => rw [processMsg_dispatch s m p hp hdup]; simp

theorem poll_active_le (max_workers : ℕ) (fetch : ℕ → List Msg) (s : WState)
    (hfetch : ∀ k, (fetch k).length ≤ k)
    (hs : s.active.length ≤ max_workers) :
    (poll_and_process max_workers fetch s).active.length ≤ max_workers := by
  unfold poll_and_process
  have hclean : (cleanupActive s.active).length ≤ s.active.length :=
    List.length_filter_le _ _
  by_cases hc : max_workers ≤ (cleanupActive s.active).length
  · simpa [hc] using le_trans hclean hs
  · rw [if_neg hc]
    push_neg at hc
    calc ((fetch (min (max_workers - (cleanupActive s.active).length) 5)).foldl
            processMsg { s with active := cleanupActive s.active }).active.length
        ≤ (cleanupActive s.active).length +
            (fetch (min (max_workers - (cleanupActive s.active).length) 5)).length :=
          foldl_active_le _ _
      _ ≤ (cleanupActive s.active).length +
            min (max_workers - (cleanupActive s.active).length) 5 :=
          Nat.add_le_add_left (hfetch _) _
      _ ≤ (cleanupActive s.active).length +
            (max_workers - (cleanupActive s.active).length) :=
          Nat.add_le_add_left (Nat.min_le_left _ _) _
      _ = max_workers := Nat.add_sub_cancel' (le_of_lt hc)

theorem finish_active_le (s : WState) (j : String) :
    (finishJob s j).active.length ≤ s.active.length :=
  List.length_filter_le _ _

end SimpleWorker

open SimpleWorker in
/-- C2.  Bounded admission, in three parts, under the queue contract that
a receive call returns at most the requested number of messages.
(1) When no worker slot is free (`MAX_WORKERS − |active| ≤ 0` after the
cleanup of completed futures), the cycle receives nothing: the state is
unchanged except for the cleanup — in particular nothing is submitted and
nothing is deleted.
(2) Otherwise at most `min(MAX_WORKERS − |active|, 5)` messages are
received, so at most that many jobs are dispatched to the pool in the
cycle.
(3) Along every contract-respecting event trace, the number of entries in
the active-job map never exceeds `MAX_WORKERS`. -/
theorem c2_bounded_admission :
    (∀ (max_workers : ℕ) (fetch : ℕ → List Msg) (s : WState),
        max_workers ≤ get_active_count s.active →
        poll_and_process max_workers fetch s =
          { s with active := cleanupActive s.active }) ∧
    (∀ (max_workers : ℕ) (fetch : ℕ → List Msg) (s : WState),
        (∀ k, (fetch k).length ≤ k) →
        (poll_and_process max_workers fetch s).executed.length ≤
          s.executed.length + min (max_workers - get_active_count s.active) 5) ∧
    (∀ (max_workers : ℕ) (steps : List WStep),
        (∀ st ∈ steps, StepContract st) →
        (runTrace max_workers steps).active.length ≤ max_workers) := by
  refine ⟨?_, ?_, ?_⟩
  · intro mw fetch s h
    have h' : mw ≤ (cleanupActive s.active).length := h
    simp only [poll_and_process]
    rw [if_pos h']
  · intro mw fetch s hfetch
    unfold poll_and_process
    by_cases hc : mw ≤ (cleanupActive s.active).length
    · rw [if_pos hc]
      have : mw - get_active_count s.active = 0 := Nat.sub_eq_zero_of_le hc
      simp [this]
    · rw [if_neg hc]
      calc ((fetch (min (mw - (cleanupActive s.active).length) 5)).foldl
              processMsg { s with active := cleanupActive s.active }).executed.length
          ≤ s.executed.length +
              (fetch (min (mw - (cleanupActive s.active).length) 5)).length :=
            foldl_executed_le _ _
        _ ≤ s.executed.length + min (mw - get_active_count s.active) 5 :=
            Nat.add_le_add_left (hfetch _) _
  · intro mw steps hsteps
    have hbase : (⟨[], [], [], []⟩ : WState).active.length ≤ mw := by simp
    unfold runTrace
    generalize (⟨[], [], [], []⟩ : WState) = s0 at hbase
    induction steps generalizing s0 with
    | nil => exact hbase
    | cons st rest ih =>
      refine ih (fun t ht => hsteps t (List.mem_cons_of_mem _ ht)) _ ?_
      cases st with
      | poll fetch =>
        have hcon : ∀ k, (fetch k).length ≤ k :=
          hsteps (WStep.poll fetch) (List.mem_cons_self _ _)
        exact poll_active_le mw fetch s0 hcon hbase
      | finish j => exact le_trans (finish_active_le s0 j) hbase



/-! ## The slot scorer (claim C5) -/

namespace CsvSlotFilter

theorem foldl_scoreStep (trends : List Row) (entry : Row)
    (rl : List ScoringRule) (n : ℤ) (ms : List String) :
    rl.foldl (scoreStep trends entry) (n, ms) =
      (n + ((rl.filter (ruleTriggers trends entry)).map ScoringRule.weight).sum,
       ms ++ (rl.filter (ruleTriggers trends entry)).map ScoringRule.name) := by
  induction rl generalizing n ms with
  | nil => simp
  | cons r rest ih =>
    rw [List.foldl_cons, List.filter_cons]
    show rest.foldl (scoreStep trends entry)
        (if ruleTriggers trends entry r then (n + r.weight, ms ++ [r.name])
         else (n, ms)) = _
    cases h : ruleTriggers trends entry r with
    | true =>
      rw [if_pos rfl, ih, if_pos rfl]
      simp [add_assoc]
    | false =>
      rw [if_neg (by simp), ih, if_neg (by simp)]

theorem compute_slot_scores_eq (trends : List Row) (tk : String)
    (hdet : _detect_time_key trends = some tk) :
    compute_slot_scores trends = trends.filterMap fun entry =>
      match _parse_time_to_seconds (rget entry tk) with
      | none => none
      | some t => some
          ⟨t, ((RULES.filter (ruleTriggers trends entry)).map ScoringRule.weight).sum,
           (RULES.filter (ruleTriggers trends entry)).map ScoringRule.name, entry⟩ := by
  unfold compute_slot_scores
  rw [hdet]
  show (trends.filterMap fun entry =>
      match _parse_time_to_seconds (rget entry tk) with
      | none => none
      | some time_sec =>
        let s := RULES.foldl (scoreStep trends entry) (0, [])
        some (⟨time_sec, s.1, s.2, entry⟩ : ScoredSlot)) =
    trends.filterMap fun entry =>
      match _parse_time_to_seconds (rget entry tk) with
      | none => none
      | some t => some
          (⟨t, ((RULES.filter (ruleTriggers trends entry)).map ScoringRule.weight).sum,
           (RULES.filter (ruleTriggers trends entry)).map ScoringRule.name, entry⟩ :
            ScoredSlot)
  refine List.filterMap_congr fun entry _ => ?_
  cases _parse_time_to_seconds (rget entry tk) with
  | none => rfl
  | some t =>
    show some _ = some _
    rw [foldl_scoreStep trends entry RULES 0 []]
    simp

theorem rules_names_nodup : (RULES.map ScoringRule.name).Nodup := by decide

theorem mem_matched_iff (trends : List Row) (entry : Row) (r : ScoringRule)
    (hr : r ∈ RULES) :
    r.name ∈ (RULES.filter (ruleTriggers trends entry)).map ScoringRule.name ↔
      ruleTriggers trends entry r = true := by
  constructor
  · intro h
    rw [List.mem_map] at h
    obtain ⟨r', hr', hname⟩ := h
    rw [List.mem_filter] at hr'
    have : r' = r :=
      List.inj_on_of_nodup_map rules_names_nodup hr'.1 hr hname
    exact this ▸ hr'.2
  · intro h
    exact List.mem_map_of_mem _ (List.mem_filter.mpr ⟨hr, h⟩)

theorem allValuesFor_eq_none (t0 : Row) (trest : List Row) (rule : ScoringRule)
    (h : _find_key t0 rule.keys = none) : allValuesFor (t0 :: trest) rule = none := by
  unfold allValuesFor
  show (match _find_key t0 rule.keys with
    | none => none
    | some k =>
      let vals := ruleValues (t0 :: trest) k
      if vals = [] then none
      else some (⟨k, vals.sum / vals.length, vals⟩ : RuleInfo)) = none
  rw [h]

theorem allValuesFor_eq_none_of_nil (t0 : Row) (trest : List Row)
    (rule : ScoringRule) (k : String) (h : _find_key t0 rule.keys = some k)
    (hv : ruleValues (t0 :: trest) k = []) :
    allValuesFor (t0 :: trest) rule = none := by
  unfold allValuesFor
  show (match _find_key t0 rule.keys with
    | none => none
    | some k =>
      let vals := ruleValues (t0 :: trest) k
      if vals = [] then none
      else some (⟨k, vals.sum / vals.length, vals⟩ : RuleInfo)) = none
  rw [h]
  show (if ruleValues (t0 :: trest) k = [] then none
    else some (⟨k, (ruleValues (t0 :: trest) k).sum /
      (ruleValues (t0 :: trest) k).length,
      ruleValues (t0 :: trest) k⟩ : RuleInfo)) = none
  rw [if_pos hv]

theorem allValuesFor_eq_some (t0 : Row) (trest : List Row)
    (rule : ScoringRule) (k : String) (h : _find_key t0 rule.keys = some k)
    (hv : ruleValues (t0 :: trest) k ≠ []) :
    allValuesFor (t0 :: trest) rule =
      some ⟨k, (ruleValues (t0 :: trest) k).sum /
        (ruleValues (t0 :: trest) k).length, ruleValues (t0 :: trest) k⟩ := by
  unfold allValuesFor
  show (match _find_key t0 rule.keys with
    | none => none
    | some k =>
      let vals := ruleValues (t0 :: trest) k
      if vals = [] then none
      else some (⟨k, vals.sum / vals.length, vals⟩ : RuleInfo)) = _
  rw [h]
  show (if ruleValues (t0 :: trest) k = [] then none
    else some (⟨k, (ruleValues (t0 :: trest) k).sum /
      (ruleValues (t0 :: trest) k).length,
      ruleValues (t0 :: trest) k⟩ : RuleInfo)) = _
  rw [if_neg hv]

theorem ruleTriggers_eq_none (trends : List Row) (entry : Row)
    (rule : ScoringRule) (h : allValuesFor trends rule = none) :
    ruleTriggers trends entry rule = false := by
  unfold ruleTriggers
  rw [h]

theorem ruleTriggers_eq_some (trends : List Row) (entry : Row)
    (rule : ScoringRule) (info : RuleInfo)
    (h : allValuesFor trends rule = some info) :
    ruleTriggers trends entry rule =
      match _safe_float (rget entry info.key) with
      | none => false
      | some v =>
        if rule.condition = "gt_zero" then decide (0 < v)
        else if rule.condition = "above_mean" then decide (info.mean < v)
        else false := by
  unfold ruleTriggers
  rw [h]

theorem ruleTriggers_iff (t0 : Row) (trest : List Row) (entry : Row)
    (rule : ScoringRule) :
    ruleTriggers (t0 :: trest) entry rule = true ↔
      ∃ k, _find_key t0 rule.keys = some k ∧ ruleValues (t0 :: trest) k ≠ [] ∧
        ∃ v, _safe_float (rget entry k) = some v ∧
          ((rule.condition = "gt_zero" ∧ 0 < v) ∨
           (rule.condition = "above_mean" ∧
             (ruleValues (t0 :: trest) k).sum /
               (ruleValues (t0 :: trest) k).length < v)) := by
  cases hfind : _find_key t0 rule.keys with
  | none =>
    rw [ruleTriggers_eq_none _ _ _ (allValuesFor_eq_none t0 trest rule hfind)]
    constructor
    · intro h
      exact absurd h (by simp)
    · rintro ⟨k, hk, _⟩
      cases hk
  | some k =>
    by_cases hval : ruleValues (t0 :: trest) k = []
    · rw [ruleTriggers_eq_none _ _ _
        (allValuesFor_eq_none_of_nil t0 trest rule k hfind hval)]
      constructor
      · intro h
        exact absurd h (by simp)
      · rintro ⟨k', hk', hne, _⟩
        obtain rfl : k = k' := Option.some.inj hk'
        exact absurd hval hne
    · rw [ruleTriggers_eq_some _ _ _ _
        (allValuesFor_eq_some t0 trest rule k hfind hval)]
      show (match _safe_float (rget entry k) with
        | none => false
        | some v =>
          if rule.condition = "gt_zero" then decide (0 < v)
          else if rule.condition = "above_mean" then
            decide ((ruleValues (t0 :: trest) k).sum /
              (ruleValues (t0 :: trest) k).length < v)
          else false) = true ↔ _
      cases hsf : _safe_float (rget entry k) with
      | none =>
        constructor
        · intro h
          exact absurd h (by simp)
        · rintro ⟨k', hk', _, v, hv, _⟩
          obtain rfl : k = k' := Option.some.inj hk'
          rw [hsf] at hv
          cases hv
      | some v =>
        show (if rule.condition = "gt_zero" then decide (0 < v)
          else if rule.condition = "above_mean" then
            decide ((ruleValues (t0 :: trest) k).sum /
              (ruleValues (t0 :: trest) k).length < v)
          else false) = true ↔ _
        constructor
        · intro h
          by_cases hg : rule.condition = "gt_zero"
          · rw [if_pos hg] at h
            exact ⟨k, rfl, hval, v, hsf, Or.inl ⟨hg, of_decide_eq_true h⟩⟩
          · rw [if_neg hg] at h
            by_cases ha : rule.condition = "above_mean"
            · rw [if_pos ha] at h
              exact ⟨k, rfl, hval, v, hsf, Or.inr ⟨ha, of_decide_eq_true h⟩⟩
            · rw [if_neg ha] at h
              cases h
        · rintro ⟨k', hk', _, v', hv', hcond⟩
          obtain rfl : k = k' := Option.some.inj hk'
          rw [hsf] at hv'
          obtain rfl : v = v' := Option.some.inj hv'
          rcases hcond with ⟨hg, hlt⟩ | ⟨ha, hlt⟩
          · rw [if_pos hg]
            exact decide_eq_true hlt
          · have hga : rule.condition ≠ "gt_zero" := by
              rw [ha]
              decide
            rw [if_neg hga, if_pos ha]
            exact decide_eq_true hlt

end CsvSlotFilter

open CsvSlotFilter in
/-- C5.  Slot scoring: when a time column `tk` is detected, (1) every row
with a parseable time yields a scored slot; (2) every slot's score is the
sum of the weights of its matched rules; (3) a rule matches a slot iff its
KPI column resolves against the first row, at least one row has a
parseable numeric value for that column, the slot's own value parses, and —
for a `gt_zero` rule — the value is strictly greater than 0, or — for an
`above_mean` rule — the value is strictly greater than the arithmetic mean
of the parseable values of that column over all rows (in particular a row
with an unparseable value for the column never matches the rule). -/
theorem c5_slot_scoring (trends : List Row) (tk : String)
    (hdet : _detect_time_key trends = some tk) :
    (∀ entry ∈ trends, ∀ t : ℚ,
        _parse_time_to_seconds (rget entry tk) = some t →
        ∃ slot ∈ compute_slot_scores trends,
          slot.raw_entry = entry ∧ slot.time_sec = t) ∧
    (∀ slot ∈ compute_slot_scores trends,
        slot.score = ((RULES.filter fun r => r.name ∈ slot.matched_rules).map
          ScoringRule.weight).sum) ∧
    (∀ slot ∈ compute_slot_scores trends, ∀ rule ∈ RULES,
        (rule.name ∈ slot.matched_rules ↔
          ∃ k, _find_key (trends.headD []) rule.keys = some k ∧
            ruleValues trends k ≠ [] ∧
            ∃ v, _safe_float (rget slot.raw_entry k) = some v ∧
              ((rule.condition = "gt_zero" ∧ 0 < v) ∨
               (rule.condition = "above_mean" ∧
                 (ruleValues trends k).sum / (ruleValues trends k).length < v)))) := by
  have heq := compute_slot_scores_eq trends tk hdet
  obtain ⟨t0, trest, rfl⟩ : ∃ t0 trest, trends = t0 :: trest := by
    cases trends with
    | nil => exact absurd hdet (by simp [_detect_time_key])
    | cons a l => exact ⟨a, l, rfl⟩
  refine ⟨?_, ?_, ?_⟩
  · intro entry hentry t ht
    rw [heq]
    refine ⟨⟨t, ((RULES.filter (ruleTriggers (t0 :: trest) entry)).map
      ScoringRule.weight).sum,
      (RULES.filter (ruleTriggers (t0 :: trest) entry)).map ScoringRule.name,
      entry⟩, ?_, rfl, rfl⟩
    rw [List.mem_filterMap]
    exact ⟨entry, hentry, by rw [ht]⟩
  · intro slot hslot
    rw [heq, List.mem_filterMap] at hslot
    obtain ⟨entry, hentry, hf⟩ := hslot
    cases ht : _parse_time_to_seconds (rget entry tk) with
    | none => rw [ht] at hf; exact absurd hf (by simp)
    | some t =>
      rw [ht] at hf
      obtain rfl := Option.some.inj hf
      have hfc : ∀ r ∈ RULES,
          (decide (r.name ∈ (RULES.filter
            (ruleTriggers (t0 :: trest) entry)).map ScoringRule.name)) =
            ruleTriggers (t0 :: trest) entry r := by
        intro r hr
        have hiff := mem_matched_iff (t0 :: trest) entry r hr
        cases h : ruleTriggers (t0 :: trest) entry r with
        | true => simp [hiff.mpr h]
        | false =>
          have : ¬ r.name ∈ (RULES.filter
              (ruleTriggers (t0 :: trest) entry)).map ScoringRule.name :=
            fun hm => by simpa [h] using hiff.mp hm
          simp [this]
      show ((RULES.filter (ruleTriggers (t0 :: trest) entry)).map
          ScoringRule.weight).sum =
        ((RULES.filter fun r => decide (r.name ∈ (RULES.filter
          (ruleTriggers (t0 :: trest) entry)).map ScoringRule.name)).map
          ScoringRule.weight).sum
      rw [List.filter_congr hfc]
  · intro slot hslot rule hrule
    rw [heq, List.mem_filterMap] at hslot
    obtain ⟨entry, hentry, hf⟩ := hslot
    cases ht : _parse_time_to_seconds (rget entry tk) with
    | none => rw [ht] at hf; exact absurd hf (by simp)
    | some t =>
      rw [ht] at hf
      obtain rfl := Option.some.inj hf
      show rule.name ∈ (RULES.filter (ruleTriggers (t0 :: trest) entry)).map
          ScoringRule.name ↔ _
      rw [mem_matched_iff (t0 :: trest) entry rule hrule]
      exact ruleTriggers_iff t0 trest entry rule

open CsvSlotFilter in
/-- Witness for C5 at a concrete one-row table with a `Time` column and a
positive `GMV` value. -/
theorem c5_slot_scoring_witness :
    _detect_time_key [[("Time", Cell.num 0), ("GMV", Cell.num 100)]] =
      some "Time" ∧
    ((∀ entry ∈ [[("Time", Cell.num 0), ("GMV", Cell.num 100)]], ∀ t : ℚ,
        _parse_time_to_seconds (rget entry "Time") = some t →
        ∃ slot ∈ compute_slot_scores [[("Time", Cell.num 0),
            ("GMV", Cell.num 100)]],
          slot.raw_entry = entry ∧ slot.time_sec = t) ∧
    (∀ slot ∈ compute_slot_scores [[("Time", Cell.num 0),
        ("GMV", Cell.num 100)]],
        slot.score = ((RULES.filter fun r => r.name ∈ slot.matched_rules).map
          ScoringRule.weight).sum) ∧
    (∀ slot ∈ compute_slot_scores [[("Time", Cell.num 0),
        ("GMV", Cell.num 100)]], ∀ rule ∈ RULES,
        (rule.name ∈ slot.matched_rules ↔
          ∃ k, _find_key ([[("Time", Cell.num 0),
              ("GMV", Cell.num 100)]].headD []) rule.keys = some k ∧
            ruleValues [[("Time", Cell.num 0), ("GMV", Cell.num 100)]] k ≠ [] ∧
            ∃ v, _safe_float (rget slot.raw_entry k) = some v ∧
              ((rule.condition = "gt_zero" ∧ 0 < v) ∨
               (rule.condition = "above_mean" ∧
                 (ruleValues [[("Time", Cell.num 0),
                     ("GMV", Cell.num 100)]] k).sum /
                   (ruleValues [[("Time", Cell.num 0),
                     ("GMV", Cell.num 100)]] k).length < v))))) :=
  ⟨by decide, c5_slot_scoring _ _ (by decide)⟩

/-! ## Importance ranges (claim C6) -/

namespace CsvSlotFilter

theorem mergeSorted_preserves (P : TimeRange → Prop)
    (hP : ∀ last r, P last → P r → P (mergeInto last r))
    (last : TimeRange) (rest : List TimeRange) (hlast : P last)
    (hrest : ∀ r ∈ rest, P r) :
    ∀ r ∈ mergeSorted last rest, P r := by
  induction rest generalizing last with
  | nil =>
    intro r hr
    rw [mergeSorted] at hr
    obtain rfl : r = last := by simpa using hr
    exact hlast
  | cons q rest ih =>
    intro r hr
    by_cases hm : q.start_sec ≤ last.end_sec
    · rw [mergeSorted, if_pos hm] at hr
      exact ih (mergeInto last q)
        (hP last q hlast (hrest q (by simp)))
        (fun x hx => hrest x (by simp [hx])) r hr
    · rw [mergeSorted, if_neg hm] at hr
      rcases List.mem_cons.mp hr with rfl | hr
      · exact hlast
      · exact ih q (hrest q (by simp)) (fun x hx => hrest x (by simp [hx])) r hr

theorem merge_preserves (P : TimeRange → Prop)
    (hP : ∀ last r, P last → P r → P (mergeInto last r))
    (rs : List TimeRange) (h : ∀ r ∈ rs, P r) :
    ∀ r ∈ _merge_overlapping_ranges rs, P r := by
  unfold _merge_overlapping_ranges
  cases hsort : pySorted TimeRange.start_sec rs with
  | nil => simp
  | cons r0 rest =>
    have hperm : (r0 :: rest).Perm rs := hsort ▸ List.perm_insertionSort _ rs
    have hmem : ∀ r ∈ r0 :: rest, P r := fun r hr => h r (hperm.mem_iff.mp hr)
    exact mergeSorted_preserves P hP r0 rest (hmem r0 (by simp))
      (fun r hr => hmem r (by simp [hr]))

theorem get_important_time_ranges_nil (trends : List Row) (D : ℚ)
    (vso : Option ℚ) (margin : ℚ) (min_score : ℤ)
    (hs : compute_slot_scores trends = []) :
    get_important_time_ranges trends D vso margin min_score = [] := by
  unfold get_important_time_ranges
  rw [hs]

theorem get_important_time_ranges_cons (trends : List Row) (D : ℚ)
    (vso : Option ℚ) (margin : ℚ) (min_score : ℤ) (s0 : ScoredSlot)
    (srest : List ScoredSlot) (hs : compute_slot_scores trends = s0 :: srest) :
    get_important_time_ranges trends D vso margin min_score =
      (if (s0 :: srest).filter (fun s => min_score ≤ s.score) = [] then []
       else
        _merge_overlapping_ranges
          (((s0 :: srest).filter (fun s => min_score ≤ s.score)).map fun slot =>
            let slot_video_sec := slot.time_sec - vso.getD s0.time_sec
            let range_start := max 0 (slot_video_sec - margin)
            let range_end := min D (slot_video_sec + margin)
            (⟨range_start, range_end, pyInt range_start, pyInt range_end,
              slot.score, slot.matched_rules.toFinset⟩ : TimeRange))) := by
  unfold get_important_time_ranges
  rw [hs]

end CsvSlotFilter

open CsvSlotFilter in
/-- C6 (amended).  Importance-range well-formedness: for a non-negative
video duration and margin, every range returned by
`get_important_time_ranges` satisfies `0 ≤ start_sec ≤ end_sec ≤ D`,
PROVIDED every kept slot's video-relative time lies within
`[-margin, D + margin]`.  (As the counterexample shows, the unconditional
claim fails: a kept slot whose video-relative time exceeds
`D + margin` produces a clipped range with `start_sec > end_sec`, which
reaches and survives merging.) -/
theorem c6_importance_range_wellformed (trends : List Row) (D : ℚ)
    (vso : Option ℚ) (margin : ℚ) (min_score : ℤ)
    (hD : 0 ≤ D) (hm : 0 ≤ margin)
    (hslots : ∀ slot ∈ compute_slot_scores trends, min_score ≤ slot.score →
      -margin ≤ slot.time_sec -
          vso.getD (((compute_slot_scores trends).headD
            ⟨0, 0, [], []⟩).time_sec) ∧
        slot.time_sec - vso.getD (((compute_slot_scores trends).headD
          ⟨0, 0, [], []⟩).time_sec) ≤ D + margin) :
    ∀ r ∈ get_important_time_ranges trends D vso margin min_score,
      0 ≤ r.start_sec ∧ r.start_sec ≤ r.end_sec ∧ r.end_sec ≤ D := by
  intro r hr
  cases hs : compute_slot_scores trends with
  | nil =>
    rw [get_important_time_ranges_nil trends D vso margin min_score hs] at hr
    exact absurd hr (List.not_mem_nil r)
  | cons s0 srest =>
    rw [get_important_time_ranges_cons trends D vso margin min_score s0 srest hs]
      at hr
    rw [hs] at hslots
    by_cases himp : (s0 :: srest).filter (fun s => min_score ≤ s.score) = []
    · rw [if_pos himp] at hr
      exact absurd hr (List.not_mem_nil r)
    · rw [if_neg himp] at hr
      refine merge_preserves
        (fun q => 0 ≤ q.start_sec ∧ q.start_sec ≤ q.end_sec ∧ q.end_sec ≤ D)
        ?_ _ ?_ r hr
      · rintro last q ⟨hl1, hl2, hl3⟩ ⟨hq1, hq2, hq3⟩
        exact ⟨hl1, le_trans hl2 (le_max_left _ _), max_le hl3 hq3⟩
      · intro q hq
        rw [List.mem_map] at hq
        obtain ⟨slot, hslot, rfl⟩ := hq
        rw [List.mem_filter] at hslot
        obtain ⟨hmem, hsc⟩ := hslot
        have hsc' : min_score ≤ slot.score := by
          simpa using hsc
        obtain ⟨hlo, hhi⟩ := hslots slot hmem hsc'
        simp only [List.headD_cons] at hlo hhi
        constructor
        · exact le_max_left _ _
        constructor
        · refine max_le (le_min hD ?_) (le_min ?_ ?_) <;> dsimp only <;> linarith
        · exact min_le_left _ _

open CsvSlotFilter in
/-- Witness for the amended C6 at a concrete in-bounds table. -/
theorem c6_importance_range_wellformed_witness :
    (0 ≤ (1000 : ℚ)) ∧ (0 ≤ (600 : ℚ)) ∧
    (∀ slot ∈ compute_slot_scores [[("Time", Cell.num 0),
        ("GMV", Cell.num 100)]], (1 : ℤ) ≤ slot.score →
      -(600 : ℚ) ≤ slot.time_sec -
          (some (0 : ℚ)).getD (((compute_slot_scores [[("Time", Cell.num 0),
            ("GMV", Cell.num 100)]]).headD ⟨0, 0, [], []⟩).time_sec) ∧
        slot.time_sec - (some (0 : ℚ)).getD
          (((compute_slot_scores [[("Time", Cell.num 0),
            ("GMV", Cell.num 100)]]).headD ⟨0, 0, [], []⟩).time_sec) ≤
          1000 + 600) ∧
    (∀ r ∈ get_important_time_ranges [[("Time", Cell.num 0),
        ("GMV", Cell.num 100)]] 1000 (some 0) 600 1,
      0 ≤ r.start_sec ∧ r.start_sec ≤ r.end_sec ∧ r.end_sec ≤ 1000) :=
  ⟨by decide, by decide, by decide,
    c6_importance_range_wellformed _ _ _ _ _ (by decide) (by decide) (by decide)⟩

open CsvSlotFilter in
/-- Counterexample to C6 as stated: one slot whose wall-clock time lies far
beyond the video duration (video start given as 0, duration 100 s, default
margin 600 s, slot at 10000 s) produces the single returned range
`[9400, 100]` with `start_sec > end_sec` — a malformed range reaches and
survives merging. -/
theorem c6_importance_range_counterexample :
    get_important_time_ranges [[("Time", Cell.num 10000),
        ("GMV", Cell.num 100)]] 100 (some 0) 600 1 =
      [⟨9400, 100, 9400, 100, 3, {"high_gmv"}⟩] ∧
    ¬ ((9400 : ℚ) ≤ 100) := by
  exact ⟨by decide, by decide⟩

/-! ## Exposure segmentation (claim C7) -/

namespace ProductDetection

theorem buildSegs_cons_eq (tol : ℤ) (s e : ℕ) (cs : List ℚ) (f : ℕ) (c : ℚ)
    (rest : List (ℕ × ℚ)) :
    buildSegs tol s e cs ((f, c) :: rest) =
      if (f : ℤ) - e ≤ tol then buildSegs tol s f (cs ++ [c]) rest
      else (s, e, cs) :: buildSegs tol f f [c] rest := rfl

theorem splitRuns_cons_eq (tol : ℤ) (x : ℕ × ℚ) (xs : List (ℕ × ℚ)) :
    splitRuns tol (x :: xs) =
      match splitRuns tol xs with
      | [] => [[x]]
      | [] :: rss => [x] :: [] :: rss
      | (y :: ys) :: rss =>
        if (y.1 : ℤ) - x.1 ≤ tol then (x :: y :: ys) :: rss
        else [x] :: (y :: ys) :: rss := rfl

theorem splitRuns_cons_nil (tol : ℤ) (x : ℕ × ℚ) (xs : List (ℕ × ℚ))
    (h : splitRuns tol xs = []) : splitRuns tol (x :: xs) = [[x]] := by
  rw [splitRuns_cons_eq, h]

theorem splitRuns_cons_pos (tol : ℤ) (x y : ℕ × ℚ) (xs ys : List (ℕ × ℚ))
    (rss : List (List (ℕ × ℚ))) (h : splitRuns tol xs = (y :: ys) :: rss)
    (hgap : (y.1 : ℤ) - x.1 ≤ tol) :
    splitRuns tol (x :: xs) = (x :: y :: ys) :: rss := by
  rw [splitRuns_cons_eq, h]
  exact if_pos hgap

theorem splitRuns_cons_neg (tol : ℤ) (x y : ℕ × ℚ) (xs ys : List (ℕ × ℚ))
    (rss : List (List (ℕ × ℚ))) (h : splitRuns tol xs = (y :: ys) :: rss)
    (hgap : ¬ (y.1 : ℤ) - x.1 ≤ tol) :
    splitRuns tol (x :: xs) = [x] :: (y :: ys) :: rss := by
  rw [splitRuns_cons_eq, h]
  exact if_neg hgap

theorem splitRuns_cons (tol : ℤ) (x : ℕ × ℚ) (xs : List (ℕ × ℚ)) :
    ∃ t Rs, splitRuns tol (x :: xs) = (x :: t) :: Rs := by
  rw [splitRuns_cons_eq]
  cases splitRuns tol xs with
  | nil => exact ⟨[], [], rfl⟩
  | cons R rss =>
    cases R with
    | nil => exact ⟨[], [] :: rss, rfl⟩
    | cons y ys =>
      by_cases h : (y.1 : ℤ) - x.1 ≤ tol
      · exact ⟨y :: ys, rss, if_pos h⟩
      · exact ⟨[], (y :: ys) :: rss, if_neg h⟩

theorem buildSegs_eq_splitRuns (tol : ℤ) :
    ∀ (rest : List (ℕ × ℚ)) (s e : ℕ) (cs : List ℚ) (c0 : ℚ)
      (t : List (ℕ × ℚ)) (Rs : List (List (ℕ × ℚ))),
      splitRuns tol ((e, c0) :: rest) = ((e, c0) :: t) :: Rs →
      buildSegs tol s e cs rest =
        (s, (((e, c0) :: t).getLastD (0, 0)).1, cs ++ t.map Prod.snd) ::
          Rs.map runSummary := by
  intro rest
  induction rest with
  | nil =>
    intro s e cs c0 t Rs h
    have h2 : ([[(e, c0)]] : List (List (ℕ × ℚ))) = ((e, c0) :: t) :: Rs := h
    obtain ⟨h3, h4⟩ := List.cons.inj h2
    obtain rfl : t = [] := (List.cons.inj h3).2.symm
    obtain rfl : Rs = [] := h4.symm
    simp [buildSegs]
  | cons fc rest' ih =>
    obtain ⟨f, c⟩ := fc
    intro s e cs c0 t Rs h
    obtain ⟨t', Rs', h'⟩ := splitRuns_cons tol (f, c) rest'
    rw [buildSegs_cons_eq]
    by_cases hgap : (f : ℤ) - (e : ℤ) ≤ tol
    · have h2 : splitRuns tol ((e, c0) :: (f, c) :: rest') =
          ((e, c0) :: (f, c) :: t') :: Rs' :=
        splitRuns_cons_pos tol (e, c0) (f, c) ((f, c) :: rest') t' Rs' h' hgap
      rw [h] at h2
      obtain ⟨h3, h4⟩ := List.cons.inj h2
      rw [if_pos hgap, ih s f (cs ++ [c]) c t' Rs' h', h4,
        show t = (f, c) :: t' from (List.cons.inj h3).2]
      simp [List.getLastD_cons]
    · have h2 : splitRuns tol ((e, c0) :: (f, c) :: rest') =
          [(e, c0)] :: ((f, c) :: t') :: Rs' :=
        splitRuns_cons_neg tol (e, c0) (f, c) ((f, c) :: rest') t' Rs' h' hgap
      rw [h] at h2
      obtain ⟨h3, h4⟩ := List.cons.inj h2
      obtain rfl : t = [] := (List.cons.inj h3).2
      rw [if_neg hgap, ih f f [c] c t' Rs' h', h4]
      simp [runSummary, List.getLastD_cons]

end ProductDetection

namespace ProductDetection

/-- The segmentation loop computes exactly the maximal-run decomposition:
each segment is a run of the sorted frame list summarised as
(first frame, last frame, confidences). -/
theorem segsFor_eq_splitRuns (tol : ℤ) (fs : List (ℕ × ℚ)) :
    segsFor tol fs = (splitRuns tol (pySorted Prod.fst fs)).map runSummary := by
  unfold segsFor
  cases h : pySorted Prod.fst fs with
  | nil => rfl
  | cons fc rest =>
    obtain ⟨f, c⟩ := fc
    obtain ⟨t, Rs, hsr⟩ := splitRuns_cons tol (f, c) rest
    rw [hsr]
    show buildSegs tol f f [c] rest = _
    rw [buildSegs_eq_splitRuns tol rest f f [c] c t Rs hsr]
    simp [runSummary, List.getLastD_cons]

end ProductDetection

namespace ProductDetection

/-- The run decomposition is exactly "consecutive detections belong to the
same segment iff their gap is within the tolerance": every run is
non-empty with all consecutive gaps ≤ tol, consecutive runs are separated
by a gap > tol, and the runs concatenate back to the input list. -/
theorem splitRuns_spec (tol : ℤ) (l : List (ℕ × ℚ)) :
    (∀ R ∈ splitRuns tol l, R ≠ [] ∧
      R.Chain' (fun a b => (b.1 : ℤ) - a.1 ≤ tol)) ∧
    List.Chain' (fun R S =>
      tol < ((S.headD (0, 0)).1 : ℤ) - ((R.getLastD (0, 0)).1 : ℤ))
      (splitRuns tol l) ∧
    (splitRuns tol l).flatten = l := by
  induction l with
  | nil => exact ⟨by simp [splitRuns], by simp [splitRuns], rfl⟩
  | cons x xs ih =>
    obtain ⟨ihruns, ihchain, ihjoin⟩ := ih
    cases h : splitRuns tol xs with
    | nil =>
      rw [h] at ihjoin
      have hxs : xs = [] := by simpa using ihjoin.symm
      subst hxs
      rw [splitRuns_cons_nil tol x [] h]
      exact ⟨by simp, by simp, by simp⟩
    | cons R rss =>
      cases R with
      | nil => exact absurd rfl (ihruns [] (h ▸ List.mem_cons_self _ _)).1
      | cons y ys =>
        rw [h] at ihruns ihchain ihjoin
        by_cases hgap : (y.1 : ℤ) - x.1 ≤ tol
        · rw [splitRuns_cons_pos tol x y xs ys rss h hgap]
          refine ⟨?_, ?_, ?_⟩
          · intro S hS
            rcases List.mem_cons.mp hS with rfl | hS
            · have hy := ihruns (y :: ys) (List.mem_cons_self _ _)
              exact ⟨by simp, List.Chain'.cons hgap hy.2⟩
            · exact ihruns S (List.mem_cons_of_mem _ hS)
          · cases rss with
            | nil => simp
            | cons S rss' =>
              rw [List.chain'_cons] at ihchain ⊢
              refine ⟨?_, ihchain.2⟩
              simpa [List.getLastD_cons] using ihchain.1
          · simpa using ihjoin
        · rw [splitRuns_cons_neg tol x y xs ys rss h hgap]
          refine ⟨?_, ?_, ?_⟩
          · intro S hS
            rcases List.mem_cons.mp hS with rfl | hS
            · exact ⟨by simp, by simp⟩
            · exact ihruns S hS
          · rw [List.chain'_cons]
            exact ⟨by simpa using lt_of_not_le hgap, ihchain⟩
          · simpa using ihjoin

/-- Membership in a fold that appends per-element blocks. -/
theorem mem_foldl_append {α β : Type} (g : α → List β) (l : List α)
    (init : List β) (b : β) :
    b ∈ l.foldl (fun acc x => acc ++ g x) init ↔
      b ∈ init ∨ ∃ x ∈ l, b ∈ g x := by
  induction l generalizing init with
  | nil => simp
  | cons x xs ih =>
    rw [List.foldl_cons, ih]
    simp only [List.mem_append, List.mem_cons]
    constructor
    · rintro ((hb | hb) | ⟨y, hy, hb⟩)
      · exact Or.inl hb
      · exact Or.inr ⟨x, Or.inl rfl, hb⟩
      · exact Or.inr ⟨y, Or.inr hy, hb⟩
    · rintro (hb | ⟨y, (rfl | hy), hb⟩)
      · exact Or.inl (Or.inl hb)
      · exact Or.inl (Or.inr hb)
      · exact Or.inr ⟨y, hy, hb⟩

end ProductDetection

namespace ProductDetection

/-- Membership in the exposure timeline: exactly the segments of the
surviving per-product frame lists that meet the minimum duration, with the
end time extended by one sampling interval and the confidence the rounded
mean of the member confidences. -/
theorem mem_merge_detections_iff (d : List (ℕ × List FrameDet))
    (i : ℕ) (minDur thr : ℚ) (exp : Exposure) :
    exp ∈ merge_detections_to_timeline d i minDur thr ↔
      ∃ nf ∈ product_frames d thr, ∃ seg ∈ segsFor (gapTolerance i) nf.2,
        ¬ (((seg.2.1 + i : ℕ) : ℚ) - (seg.1 : ℚ) < minDur) ∧
        exp = ⟨nf.1, "", (seg.1 : ℚ), ((seg.2.1 + i : ℕ) : ℚ),
          round2 (seg.2.2.sum / seg.2.2.length), false⟩ := by
  unfold merge_detections_to_timeline
  constructor
  · intro h
    have h1 : exp ∈ (product_frames d thr).foldl
        (fun acc nf => acc ++ ((segsFor (gapTolerance i) nf.2).filterMap
          fun seg =>
            if ((seg.2.1 + i : ℕ) : ℚ) - (seg.1 : ℚ) < minDur then none
            else some ⟨nf.1, "", (seg.1 : ℚ), ((seg.2.1 + i : ℕ) : ℚ),
              round2 (seg.2.2.sum / seg.2.2.length), false⟩)) [] :=
      (List.perm_insertionSort _ _).mem_iff.mp h
    rw [mem_foldl_append] at h1
    rcases h1 with h1 | ⟨nf, hnf, hseg⟩
    · exact absurd h1 (List.not_mem_nil exp)
    · rw [List.mem_filterMap] at hseg
      obtain ⟨seg, hsegmem, hsome⟩ := hseg
      by_cases hdur : ((seg.2.1 + i : ℕ) : ℚ) - (seg.1 : ℚ) < minDur
      · rw [if_pos hdur] at hsome
        cases hsome
      · rw [if_neg hdur] at hsome
        exact ⟨nf, hnf, seg, hsegmem, hdur, (Option.some.inj hsome).symm⟩
  · rintro ⟨nf, hnf, seg, hseg, hdur, rfl⟩
    refine (List.perm_insertionSort _ _).mem_iff.mpr ?_
    rw [mem_foldl_append]
    refine Or.inr ⟨nf, hnf, ?_⟩
    rw [List.mem_filterMap]
    exact ⟨seg, hseg, by rw [if_neg hdur]⟩

end ProductDetection

open ProductDetection in
/-- C7 (amended).  Exposure segmentation, in four parts.
(1) The segmentation loop computes the maximal-run decomposition of each
product's sorted frame list, each run summarised as
(first frame, last frame, member confidences) — so a segment's start is
its first detection frame and its end frame is its last detection frame.
(2) The run decomposition groups two consecutive surviving detections into
the same run iff their frame gap is at most the tolerance
`2·interval + 1`, runs are separated by larger gaps, and the runs
concatenate back to the detection list.
(3) The returned exposures are exactly the runs meeting the minimum
duration, with end time = last frame + interval and confidence the
arithmetic mean of the member confidences ROUNDED to two decimals (the
rounding is the amendment: the source stores `round(mean, 2)`, not the
exact mean — see the counterexample).
(4) With `sample_interval = 5` (tolerance 11), detections at frames 0 and
11 form one segment while detections at frames 0 and 12 form two. -/
theorem c7_exposure_segmentation :
    (∀ (tol : ℤ) (fs : List (ℕ × ℚ)),
      segsFor tol fs = (splitRuns tol (pySorted Prod.fst fs)).map runSummary) ∧
    (∀ (tol : ℤ) (l : List (ℕ × ℚ)),
      (∀ R ∈ splitRuns tol l, R ≠ [] ∧
        R.Chain' (fun a b => (b.1 : ℤ) - a.1 ≤ tol)) ∧
      List.Chain' (fun R S =>
        tol < ((S.headD (0, 0)).1 : ℤ) - ((R.getLastD (0, 0)).1 : ℤ))
        (splitRuns tol l) ∧
      (splitRuns tol l).flatten = l) ∧
    (∀ (d : List (ℕ × List FrameDet)) (i : ℕ) (minDur thr : ℚ)
        (exp : Exposure),
      exp ∈ merge_detections_to_timeline d i minDur thr ↔
        ∃ nf ∈ product_frames d thr, ∃ seg ∈ segsFor (gapTolerance i) nf.2,
          ¬ (((seg.2.1 + i : ℕ) : ℚ) - (seg.1 : ℚ) < minDur) ∧
          exp = ⟨nf.1, "", (seg.1 : ℚ), ((seg.2.1 + i : ℕ) : ℚ),
            round2 (seg.2.2.sum / seg.2.2.length), false⟩) ∧
    ((segsFor (gapTolerance 5) [(0, 9/10), (11, 9/10)]).length = 1 ∧
     (segsFor (gapTolerance 5) [(0, 9/10), (12, 9/10)]).length = 2) :=
  ⟨segsFor_eq_splitRuns, splitRuns_spec, mem_merge_detections_iff,
   by decide, by decide⟩

open ProductDetection in
/-- Counterexample to C7 as stated: three detections of product `"X"` at
frames 0, 5, 10 with confidences 0.85, 0.9, 0.9 form one segment (0–15 s)
whose stored confidence is `round(53/60, 2) = 0.88`, not the arithmetic
mean `53/60 = 0.8833…` of the member confidences. -/
theorem c7_exposure_segmentation_counterexample :
    merge_detections_to_timeline
      [(0, [⟨"X", 17/20, "hand_holding"⟩]),
       (5, [⟨"X", 9/10, "hand_holding"⟩]),
       (10, [⟨"X", 9/10, "hand_holding"⟩])] 5 8 (1/2) =
      [⟨"X", "", 0, 15, 22/25, false⟩] ∧
    ¬ ((22/25 : ℚ) = ([17/20, 9/10, 9/10] : List ℚ).sum / 3) :=
  ⟨by decide, by decide⟩

/-! ## Multi-modal fusion (claim C8) -/

namespace ProductDetection

theorem check_audio_mention_fst (pk : List (String × List String))
    (name text : String) :
    (check_audio_mention pk name text).1 = true ↔
      text ≠ "" ∧ ∃ kw ∈ keywordsFor pk name, strContainsSub text kw = true := by
  unfold check_audio_mention
  by_cases h : text = ""
  · rw [if_pos h]
    simp [h]
  · rw [if_neg h]
    show decide (0 < matchCount (keywordsFor pk name) text) = true ↔ _
    rw [decide_eq_true_eq]
    constructor
    · intro hc
      refine ⟨h, ?_⟩
      unfold matchCount at hc
      rw [List.length_pos] at hc
      obtain ⟨kw, hkw⟩ := List.exists_mem_of_ne_nil _ hc
      rw [List.mem_filter] at hkw
      exact ⟨kw, hkw.1, hkw.2⟩
    · rintro ⟨-, kw, hkw, hsub⟩
      unfold matchCount
      rw [List.length_pos]
      intro hnil
      have : kw ∈ ((keywordsFor pk name).filter
          fun kw => strContainsSub text kw) := List.mem_filter.mpr ⟨hkw, hsub⟩
      rw [hnil] at this
      exact absurd this (List.not_mem_nil kw)

theorem check_audio_mention_snd (pk : List (String × List String))
    (name text : String) (h : text ≠ "") :
    (check_audio_mention pk name text).2 =
      matchCount (keywordsFor pk name) text := by
  unfold check_audio_mention
  rw [if_neg h]

end ProductDetection

open ProductDetection in
/-- C8 (amended).  Multi-modal fusion: with non-empty transcript segments
and a non-empty product list, every pre-existing exposure appears in the
output with its identity fields unchanged and (1) when the transcript text
gathered over `[start − 10, end + 10]` is non-empty and contains at least
one of the product's keywords as a substring: confidence
`min(1, old + min(0.20, matchCount·0.08))` and `audio_confirmed = true`;
(2) otherwise: confidence `round(old · 0.6, 2)` and
`audio_confirmed = false`.  (The rounding in (2) is the amendment: the
source stores `round(conf * 0.6, 2)`, not `conf * 0.6` — see the
counterexample.) -/
theorem c8_multimodal_fusion (exps : List Exposure) (ts : List TranscriptSeg)
    (ps : List Product) (hts : ts ≠ []) (hps : ps ≠ []) :
    ∀ e ∈ exps, ∃ e' ∈ enrich_with_transcription exps ts ps,
      e'.product_name = e.product_name ∧ e'.brand_name = e.brand_name ∧
      e'.time_start = e.time_start ∧ e'.time_end = e.time_end ∧
      (if get_transcript_text ts e.time_start e.time_end ≠ "" ∧
          ∃ kw ∈ keywordsFor (productKeywords ps) e.product_name,
            strContainsSub (get_transcript_text ts e.time_start e.time_end)
              kw = true then
        e'.confidence = min 1 (e.confidence + min (1/5)
          ((matchCount (keywordsFor (productKeywords ps) e.product_name)
            (get_transcript_text ts e.time_start e.time_end) : ℚ) * (2/25))) ∧
          e'.audio_confirmed = true
      else
        e'.confidence = round2 (e.confidence * (3/5)) ∧
          e'.audio_confirmed = false) := by
  intro e he
  refine ⟨enrichExposure ts (productKeywords ps) e, ?_, ?_⟩
  · unfold enrich_with_transcription
    rw [if_neg (by simp [hts, hps])]
    refine (List.perm_insertionSort _ _).mem_iff.mpr ?_
    rw [List.mem_append]
    exact Or.inl (List.mem_map_of_mem _ he)
  · simp only [enrichExposure]
    cases hmc : (check_audio_mention (productKeywords ps) e.product_name
        (get_transcript_text ts e.time_start e.time_end)).1 with
    | true =>
      rw [if_pos rfl]
      have hcond := (check_audio_mention_fst (productKeywords ps)
        e.product_name
        (get_transcript_text ts e.time_start e.time_end)).mp hmc
      rw [if_pos hcond]
      refine ⟨rfl, rfl, rfl, rfl, ?_, rfl⟩
      show min 1 (e.confidence + min (1/5)
        (((check_audio_mention (productKeywords ps) e.product_name
          (get_transcript_text ts e.time_start e.time_end)).2 : ℚ) *
            (2/25))) = _
      rw [check_audio_mention_snd _ _ _ hcond.1]
    | false =>
      rw [if_neg (by simp [hmc])]
      have hcond : ¬ (get_transcript_text ts e.time_start e.time_end ≠ "" ∧
          ∃ kw ∈ keywordsFor (productKeywords ps) e.product_name,
            strContainsSub (get_transcript_text ts e.time_start e.time_end)
              kw = true) := by
        intro hc
        have := (check_audio_mention_fst (productKeywords ps)
          e.product_name
          (get_transcript_text ts e.time_start e.time_end)).mpr hc
        rw [hmc] at this
        cases this
      rw [if_neg hcond]
      exact ⟨rfl, rfl, rfl, rfl, rfl, rfl⟩

open ProductDetection in
/-- Witness for the amended C8: one exposure of product `"Cream"`, one
overlapping transcript segment mentioning it. -/
theorem c8_multimodal_fusion_witness :
    ([(⟨5, 8, "buy the cream now"⟩ : TranscriptSeg)] ≠ []) ∧
    ([(⟨"Cream", ""⟩ : Product)] ≠ []) ∧
    (∀ e ∈ [(⟨"Cream", "", 0, 20, 1/2, false⟩ : Exposure)],
      ∃ e' ∈ enrich_with_transcription [⟨"Cream", "", 0, 20, 1/2, false⟩]
        [⟨5, 8, "buy the cream now"⟩] [⟨"Cream", ""⟩],
      e'.product_name = e.product_name ∧ e'.brand_name = e.brand_name ∧
      e'.time_start = e.time_start ∧ e'.time_end = e.time_end ∧
      (if get_transcript_text [⟨5, 8, "buy the cream now"⟩] e.time_start
            e.time_end ≠ "" ∧
          ∃ kw ∈ keywordsFor (productKeywords [⟨"Cream", ""⟩]) e.product_name,
            strContainsSub (get_transcript_text [⟨5, 8, "buy the cream now"⟩]
              e.time_start e.time_end) kw = true then
        e'.confidence = min 1 (e.confidence + min (1/5)
          ((matchCount (keywordsFor (productKeywords [⟨"Cream", ""⟩])
              e.product_name)
            (get_transcript_text [⟨5, 8, "buy the cream now"⟩] e.time_start
              e.time_end) : ℚ) * (2/25))) ∧
          e'.audio_confirmed = true
      else
        e'.confidence = round2 (e.confidence * (3/5)) ∧
          e'.audio_confirmed = false)) :=
  ⟨by decide, by decide,
    c8_multimodal_fusion _ _ _ (by decide) (by decide)⟩

open ProductDetection in
/-- Counterexample to C8 as stated: an exposure with confidence 0.88 and
no keyword match ends with confidence `round(0.88 · 0.6, 2) = 0.53`, not
`0.88 · 0.6 = 0.528`. -/
theorem c8_multimodal_fusion_counterexample :
    enrich_with_transcription [⟨"X", "", 0, 20, 22/25, false⟩]
        [⟨100, 105, "hello"⟩] [⟨"X", ""⟩] =
      [⟨"X", "", 0, 20, 53/100, false⟩] ∧
    ¬ ((53 : ℚ)/100 = (22/25) * (3/5)) :=
  ⟨by decide, by decide⟩

/-! ## Clustering (claims C9, C10) -/

namespace Grouping

theorem zipWith_self_eq_map (f : ℝ → ℝ → ℝ) (l : List ℝ) :
    List.zipWith f l l = l.map fun x => f x x := by
  induction l with
  | nil => rfl
  | cons x xs ih => simp [ih]

theorem sumsq_nonneg (v : List ℝ) : 0 ≤ (v.map fun x => x ^ 2).sum := by
  apply List.sum_nonneg
  intro a ha
  obtain ⟨y, -, rfl⟩ := List.mem_map.mp ha
  positivity

theorem sumsq_eq_of_norm (v : List ℝ) (c : ℝ) (hv : l2norm v = c) :
    (v.map fun x => x ^ 2).sum = c ^ 2 := by
  have h0 : 0 ≤ (v.map fun x => x ^ 2).sum := sumsq_nonneg v
  calc (v.map fun x => x ^ 2).sum
      = Real.sqrt ((v.map fun x => x ^ 2).sum) ^ 2 := (Real.sq_sqrt h0).symm
    _ = c ^ 2 := by rw [show Real.sqrt ((v.map fun x => x ^ 2).sum) = l2norm v from rfl, hv]

theorem dotV_self (v : List ℝ) (hv : l2norm v = 1) : dotV v v = 1 := by
  unfold dotV
  rw [zipWith_self_eq_map]
  rw [show (fun x : ℝ => x * x) = fun x : ℝ => x ^ 2 from funext fun x => (pow_two x).symm]
  rw [sumsq_eq_of_norm v 1 hv]
  norm_num

theorem centroidUpdate_self (v : List ℝ) (n : ℕ) :
    centroidUpdate v v n = v := by
  unfold centroidUpdate
  rw [zipWith_self_eq_map]
  have hne : ((n : ℝ) + 1) ≠ 0 := by positivity
  have hpt : ∀ x ∈ v, (x * n + x) / ((n : ℝ) + 1) = x := by
    intro x hx
    field_simp
    ring
  rw [List.map_congr_left hpt]
  simp

theorem l2_normalize_of_norm_one (v : List ℝ) (hv : l2norm v = 1) :
    l2_normalize v = v := by
  unfold l2_normalize
  rw [if_neg (by rw [hv]; norm_num), hv]
  simp

theorem bestGroupIdx_single (v : List ℝ) (m : ℕ) (hd : cosine v v = 1) :
    bestGroupIdx [⟨1, v, m⟩] v = (some 0, 1) := by
  unfold bestGroupIdx
  rw [show List.enum [(⟨1, v, m⟩ : Group)] = [(0, ⟨1, v, m⟩)] from rfl]
  rw [List.foldl_cons, List.foldl_nil]
  rw [if_pos (by rw [show (⟨1, v, m⟩ : Group).centroid = v from rfl, hd]; norm_num)]
  rw [show (⟨1, v, m⟩ : Group).centroid = v from rfl, hd]

theorem assignOne_self (v : List ℝ) (m : ℕ) (hv : l2norm v = 1) :
    assignOne [⟨1, v, m⟩] v = (1, [⟨1, v, m + 1⟩]) := by
  have hd : cosine v v = 1 := dotV_self v hv
  unfold assignOne
  rw [bestGroupIdx_single v m hd]
  show (if COSINE_THRESHOLD ≤ (1 : ℝ) then _ else _) = _
  rw [if_pos (by unfold COSINE_THRESHOLD; norm_num)]
  show (1, [(⟨1, l2_normalize (centroidUpdate v v m), m + 1⟩ : Group)]) = _
  rw [centroidUpdate_self v m, l2_normalize_of_norm_one v hv]

theorem assign_replicate (v : List ℝ) (hv : l2norm v = 1) :
    ∀ (k m : ℕ),
      assign_phases_to_groups (List.replicate k v) [⟨1, v, m⟩] =
        (List.replicate k 1, [⟨1, v, m + k⟩]) := by
  intro k
  induction k with
  | zero => intro m; rfl
  | succ k ih =>
    intro m
    rw [List.replicate_succ]
    simp only [assign_phases_to_groups]
    rw [assignOne_self v m hv]
    rw [show ((1 : ℕ), [(⟨1, v, m + 1⟩ : Group)]).2 = [(⟨1, v, m + 1⟩ : Group)] from rfl]
    rw [ih (m + 1)]
    rw [show m + 1 + k = m + (k + 1) by omega, List.replicate_succ]

end Grouping

open Grouping in
/-- C9.  Clustering self-absorption: from an empty group list, feeding the
same unit-norm embedding `v` to the incremental grouping step `N ≥ 1`
times yields exactly one group with id 1, size `N` and centroid `v`, every
item assigned id 1 (cosine of `v` with itself is `1 ≥ 0.82`, and the
running-mean centroid update followed by renormalisation fixes `v`). -/
theorem c9_clustering_self_absorption (v : List ℝ) (N : ℕ)
    (hv : l2norm v = 1) (hN : 1 ≤ N) :
    assign_phases_to_groups (List.replicate N v) [] =
      (List.replicate N 1, [⟨1, v, N⟩]) := by
  obtain ⟨k, rfl⟩ : ∃ k, N = k + 1 := ⟨N - 1, by omega⟩
  rw [List.replicate_succ]
  simp only [assign_phases_to_groups]
  rw [show assignOne [] v = (1, [⟨1, v, 1⟩]) from rfl]
  rw [show ((1 : ℕ), [(⟨1, v, 1⟩ : Group)]).2 = [(⟨1, v, 1⟩ : Group)] from rfl]
  rw [assign_replicate v hv k 1]
  rw [show 1 + k = k + 1 by omega, List.replicate_succ]

open Grouping in
/-- Witness for C9 at the unit vector `[1, 0]` and `N = 2`. -/
theorem c9_clustering_self_absorption_witness :
    l2norm [(1 : ℝ), 0] = 1 ∧ (1 : ℕ) ≤ 2 ∧
    assign_phases_to_groups (List.replicate 2 [(1 : ℝ), 0]) [] =
      (List.replicate 2 1, [⟨1, [(1 : ℝ), 0], 2⟩]) := by
  have hv : l2norm [(1 : ℝ), 0] = 1 := by
    show Real.sqrt (([(1 : ℝ), 0].map fun x => x ^ 2).sum) = 1
    norm_num [Real.sqrt_one]
  exact ⟨hv, by norm_num,
    c9_clustering_self_absorption [(1 : ℝ), 0] 2 hv (by norm_num)⟩

open Grouping in
/-- C10.  `l2_normalize` is total and never divides by zero: a zero-norm
input (necessarily the all-zero vector) is returned unchanged, and a
nonzero-norm input is divided componentwise by its norm and the result has
unit L2 norm. -/
theorem c10_l2_normalize_total (v : List ℝ) :
    (l2norm v = 0 → l2_normalize v = v ∧ ∀ x ∈ v, x = 0) ∧
    (l2norm v ≠ 0 →
      l2_normalize v = (v.map fun x => x / l2norm v) ∧
      l2norm (l2_normalize v) = 1) := by
  constructor
  · intro h
    refine ⟨by unfold l2_normalize; rw [if_pos h], ?_⟩
    have hS : (v.map fun x => x ^ 2).sum = 0 := by
      have := sumsq_eq_of_norm v 0 h
      simpa using this
    intro x hx
    have hx2 : x ^ 2 ≤ (v.map fun x => x ^ 2).sum := by
      apply List.single_le_sum
      · intro a ha
        obtain ⟨y, -, rfl⟩ := List.mem_map.mp ha
        positivity
      · exact List.mem_map.mpr ⟨x, hx, rfl⟩
    rw [hS] at hx2
    have : x ^ 2 = 0 := le_antisymm hx2 (by positivity)
    exact pow_eq_zero_iff (by norm_num) |>.mp this
  · intro h
    have hpos : 0 < l2norm v :=
      lt_of_le_of_ne (Real.sqrt_nonneg _) (Ne.symm h)
    have heq : l2_normalize v = v.map fun x => x / l2norm v := by
      unfold l2_normalize
      rw [if_neg h]
    refine ⟨heq, ?_⟩
    rw [heq]
    show Real.sqrt ((((v.map fun x => x / l2norm v)).map fun x => x ^ 2).sum) = 1
    rw [List.map_map]
    have hfun : ((fun x : ℝ => x ^ 2) ∘ fun x => x / l2norm v) =
        fun x : ℝ => x ^ 2 * (l2norm v ^ 2)⁻¹ := by
      funext x
      show (x / l2norm v) ^ 2 = x ^ 2 * (l2norm v ^ 2)⁻¹
      rw [div_eq_mul_inv, mul_pow, inv_pow]
    rw [hfun]
    rw [List.sum_map_mul_right]
    have hS : ((v.map fun x => x ^ 2).sum) = l2norm v ^ 2 :=
      sumsq_eq_of_norm v (l2norm v) rfl
    rw [hS]
    rw [mul_inv_cancel₀ (by positivity)]
    exact Real.sqrt_one
